import Mathlib

namespace Touch2

/-!
Shallow embedding of src/touch2.c (first revision in the file; the second
revision is the same logic with platform conditionals, whose Linux
configuration coincides with the first). C strings are modelled as lists of
characters without the terminating NUL; C integers as unbounded Int (nothing
in the source approaches the width bounds); the C library time functions are
environment parameters (a broken-down current local time for localtime, and
a local-timezone resolution function for mktime); system calls are driven by
an explicit oracle of per-call outcomes and every call is recorded in an
event trace. A loop that exhausts its oracle without reaching its exit
condition is reported as divergence (result none): the universal statements
over oracle length make this an honest rendering of a loop that never
terminates while the oracle keeps answering failure.
-/

/-- A struct timeval: seconds and microseconds. -/
structure Timeval where
  sec : Int
  usec : Int
deriving DecidableEq, Repr

/-- The timerisset test from sys time: nonzero seconds or nonzero
microseconds. -/
def timerisset (tv : Timeval) : Bool :=
  tv.sec != 0 || tv.usec != 0

/-- The fields of struct tm that the program reads or writes, plus tm_isdst
which mktime consults; tm_wday and tm_yday are ignored by mktime and by the
program, so they are omitted. -/
structure Tm where
  tm_sec : Int
  tm_min : Int
  tm_hour : Int
  tm_mday : Int
  tm_mon : Int
  tm_year : Int
  tm_isdst : Int
deriving DecidableEq, Repr

/-- The whitespace test used by atoi and atol (C isspace in the POSIX
locale). -/
def isSpaceC (c : Char) : Bool :=
  c == ' ' || c == '\t' || c == '\n' || c == '\x0b' || c == '\x0c' || c == '\r'

/-- The decimal digit test used by atoi and atol (C isdigit): code points 48
through 57. -/
def isDigitC (c : Char) : Bool :=
  48 ≤ c.toNat && c.toNat ≤ 57

/-- The digit-consuming phase of atoi and atol: accumulate decimal digits
until the first non-digit. -/
def parseDigits : List Char → Nat → Nat
  | [], acc => acc
  | c :: cs, acc => if isDigitC c then parseDigits cs (10 * acc + (c.toNat - 48)) else acc

/-- C atoi: skip whitespace, an optional sign, then digits; a string with no
leading digits yields 0. Overflow cannot occur in the unbounded model. -/
def atoi (s : List Char) : Int :=
  match s.dropWhile isSpaceC with
  | [] => 0
  | c :: rest =>
    if c = '-' then -(parseDigits rest 0 : Int)
    else if c = '+' then (parseDigits rest 0 : Int)
    else (parseDigits (c :: rest) 0 : Int)

/-- C atol; identical to atoi in the unbounded integer model. -/
def atol (s : List Char) : Int :=
  atoi s

/-- nstrchr from touch2.c: the number of occurrences of a character in a
string. -/
def nstrchr : List Char → Char → Nat
  | [], _ => 0
  | c :: cs, d => (if c = d then 1 else 0) + nstrchr cs d

/-- C strchr: the suffix of the string starting at the first occurrence of
the character, or none. -/
def strchr : List Char → Char → Option (List Char)
  | [], _ => none
  | c :: cs, d => if c = d then some (c :: cs) else strchr cs d

/-- The idiom s = strchr(s, c) + 1 used by str2timeval: the suffix after the
first occurrence of c. The source only evaluates it under a guard that
guarantees the occurrence exists, so the default branch is unreachable. -/
def afterChar (s : List Char) (c : Char) : List Char :=
  match strchr s c with
  | some (_ :: r) => r
  | _ => []

/-- The fraction step of str2timeval: if the remaining suffix contains a dot
and the character after the dot is not the terminator, microseconds are atol
of the text after the dot; otherwise they stay 0. -/
def fracUsec (s : List Char) : Int :=
  match strchr s '.' with
  | some (_ :: c :: r) => atol (c :: r)
  | _ => 0

/-- The field-assembly phase of str2timeval from touch2.c: count the colons
in the whole literal, then for each of year, month, day, hour, minute whose
guard holds overwrite the corresponding field of the current broken-down
time with atoi of the current suffix and advance past one colon; finally
seconds are atoi of the remaining suffix. Returns the assembled struct tm
and the remaining suffix (at which the dot search starts). -/
def tmAssemble (nowTm : Tm) (s0 : List Char) : Tm × List Char :=
  let n := nstrchr s0 ':'
  let t1 : Tm × List Char :=
    if n > 4 then ({ nowTm with tm_year := atoi s0 - 1900 }, afterChar s0 ':') else (nowTm, s0)
  let t2 : Tm × List Char :=
    if n > 3 then ({ t1.1 with tm_mon := atoi t1.2 - 1 }, afterChar t1.2 ':') else t1
  let t3 : Tm × List Char :=
    if n > 2 then ({ t2.1 with tm_mday := atoi t2.2 }, afterChar t2.2 ':') else t2
  let t4 : Tm × List Char :=
    if n > 1 then ({ t3.1 with tm_hour := atoi t3.2 }, afterChar t3.2 ':') else t3
  let t5 : Tm × List Char :=
    if n > 0 then ({ t4.1 with tm_min := atoi t4.2 }, afterChar t4.2 ':') else t4
  ({ t5.1 with tm_sec := atoi t5.2 }, t5.2)

/-- str2timeval from touch2.c, with the current local broken-down time and
the mktime resolution function as environment parameters: seconds are
mktime of the assembled broken-down time, microseconds come from the
fraction step on the remaining suffix. -/
def str2timeval (nowTm : Tm) (mk : Tm → Int) (s : List Char) : Timeval :=
  let t := tmAssemble nowTm s
  ⟨mk t.1, fracUsec t.2⟩

/-- Splitting a string at every colon; used only by the specification-side
description of the literal format (never by the embedded code). -/
def splitColon : List Char → List (List Char)
  | [] => [[]]
  | c :: cs =>
    if c = ':' then [] :: splitColon cs
    else
      match splitColon cs with
      | [] => [[c]]
      | p :: ps => (c :: p) :: ps

/-- Joining segments with colons; inverse of splitColon. -/
def joinColon : List (List Char) → List Char
  | [] => []
  | [p] => p
  | p :: q :: ps => p ++ ':' :: joinColon (q :: ps)

/-- Specification-side field assembly, following the words of the spec: the
number of colon-separated segments decides which of year, month, day, hour,
minute are present (they are filled right to left, so minute and second are
the rightmost, mandatory fields); a field that is absent keeps the current
local date and time value; a present month is converted from 1-based to
0-based; a present year has 1900 subtracted; each field is read with atoi,
so malformed text yields zero instead of an error. -/
def tmFields (nowTm : Tm) (parts : List (List Char)) : Tm :=
  match parts with
  | [] => nowTm
  | [p0] => { nowTm with tm_sec := atoi p0 }
  | [p0, p1] => { nowTm with tm_min := atoi p0, tm_sec := atoi p1 }
  | [p0, p1, p2] => { nowTm with tm_hour := atoi p0, tm_min := atoi p1, tm_sec := atoi p2 }
  | [p0, p1, p2, p3] =>
    { nowTm with tm_mday := atoi p0, tm_hour := atoi p1, tm_min := atoi p2, tm_sec := atoi p3 }
  | [p0, p1, p2, p3, p4] =>
    { nowTm with tm_mon := atoi p0 - 1, tm_mday := atoi p1, tm_hour := atoi p2,
                 tm_min := atoi p3, tm_sec := atoi p4 }
  | p0 :: p1 :: p2 :: p3 :: p4 :: p5 :: _ =>
    { nowTm with tm_year := atoi p0 - 1900, tm_mon := atoi p1 - 1, tm_mday := atoi p2,
                 tm_hour := atoi p3, tm_min := atoi p4, tm_sec := atoi p5 }

/-- Specification-side rendering of str2timeval: seconds are the
local-timezone resolution (mktime) of the assembled broken-down time, and
microseconds come from the fraction step applied to the suffix after the
consumed fields. Compared against the source rendering in the refinement
theorem for the parsing claim. -/
def str2timeval_spec (nowTm : Tm) (mk : Tm → Int) (s : List Char) : Timeval :=
  let parts := splitColon s
  ⟨mk (tmFields nowTm parts),
   fracUsec (joinColon (parts.drop (min (parts.length - 1) 5)))⟩

/-- The errno value EINTR (interrupted system call). -/
def EINTR : Nat := 4

/-- The fields of struct stat that change_ctime and main read. -/
structure StatBuf where
  st_mode : Nat
  st_atime : Int
  st_atim_nsec : Int
  st_mtime : Int
  st_mtim_nsec : Int
  st_ctime : Int
  st_ctim_nsec : Int
deriving DecidableEq, Repr

/-- The perror messages printed by change_ctime. -/
inductive PMsg
  | statMsg
  | gtodMsg
  | sigfillMsg
  | sigmaskSetMsg
  | setClockMsg
  | chmodMsg
  | restoreMsg
  | sigmaskRestoreMsg
deriving DecidableEq, Repr

/-- The observable actions of one change_ctime invocation: each system call
is recorded, settimeofday and chmod with their success, together with every
perror report. dryReport is produced only by the spec-modelled dry-run
variant. -/
inductive Event
  | statCall
  | sigBlock
  | settod (tv : Timeval) (ok : Bool)
  | chmodCall (ok : Bool)
  | sigUnblock
  | report (m : PMsg)
  | dryReport (tv : Timeval)
deriving DecidableEq, Repr

/-- The oracle of system-call outcomes for one change_ctime invocation:
successive stat results, the gettimeofday result, success of the signal-mask
calls, success of the two settimeofday calls, and successive chmod
outcomes (none is success, some e is failure with errno e). -/
structure Env where
  statRes : List (Except Nat StatBuf)
  gtodRes : Except Unit Timeval
  sigfillOk : Bool
  sigmaskSetOk : Bool
  setClockOk : Bool
  chmodRes : List (Option Nat)
  restoreClockOk : Bool
  sigmaskRestoreOk : Bool
deriving Repr

/-- The two global mode flags use_atime and use_mtime of touch2.c, passed
explicitly. -/
structure Config where
  use_atime : Bool
  use_mtime : Bool
deriving DecidableEq, Repr

/-- Derivation of the applied instant when the passed one is unset: the
target file's own atime if use_atime, else its own mtime if use_mtime, else
the value is left as passed. -/
def deriveCtime (cfg : Config) (inode : StatBuf) (ctime : Timeval) : Timeval :=
  if timerisset ctime then ctime
  else if cfg.use_atime then ⟨inode.st_atime, inode.st_atim_nsec / 1000⟩
  else if cfg.use_mtime then ⟨inode.st_mtime, inode.st_mtim_nsec / 1000⟩
  else ctime

/-- Outcome of the stat retry loop. -/
inductive StatOut
  | diverge
  | fail
  | ok (sb : StatBuf)
deriving DecidableEq, Repr

/-- The stat loop of change_ctime: retry while the call fails with EINTR;
any other failure is reported and aborts the invocation; exhausting the
oracle without an exit is divergence. -/
def statLoop : List (Except Nat StatBuf) → StatOut × List Event
  | [] => (.diverge, [])
  | .ok sb :: _ => (.ok sb, [.statCall])
  | .error e :: rs =>
    if e = EINTR then ((statLoop rs).1, .statCall :: (statLoop rs).2)
    else (.fail, [.statCall, .report .statMsg])

/-- The chmod loop of change_ctime: the body retries while chmod fails; a
non-EINTR failure is reported and decrements status but the loop is retried
all the same, so the loop only exits on a success. Returns the number of
reported failures, or none if the oracle is exhausted without a success. -/
def chmodLoop : List (Option Nat) → Option Nat × List Event
  | [] => (none, [])
  | none :: _ => (some 0, [.chmodCall true])
  | some e :: rs =>
    if e = EINTR then ((chmodLoop rs).1, .chmodCall false :: (chmodLoop rs).2)
    else ((chmodLoop rs).1.map (· + 1), .chmodCall false :: .report .chmodMsg :: (chmodLoop rs).2)

/-- The end label of change_ctime: restore the signal mask; if that fails,
report and return -1; otherwise return -1 exactly when status is nonzero. -/
def endUnblock (env : Env) (evs : List Event) (status : Int) : Option Int × List Event :=
  if env.sigmaskRestoreOk then
    (some (if status != 0 then -1 else 0), evs ++ [.sigUnblock])
  else
    (some (-1), evs ++ [.report .sigmaskRestoreMsg])

/-- change_ctime from touch2.c over the system-call oracle: stat (with EINTR
retry), derive the instant if unset, save the current time, block all
signals, then the critical section: set the clock if the instant is set
(on failure report and go to the end label), run the chmod loop, and if the
instant is set attempt to restore the saved time (reporting failure);
finally restore the signal mask and collapse the status to -1 or 0. The
result is none when a retry loop never terminates. -/
def change_ctime (cfg : Config) (env : Env) (ctime0 : Timeval) : Option Int × List Event :=
  match statLoop env.statRes with
  | (.diverge, evs) => (none, evs)
  | (.fail, evs) => (some (-1), evs)
  | (.ok inode, evs0) =>
    let ct := deriveCtime cfg inode ctime0
    match env.gtodRes with
    | .error _ => (some (-1), evs0 ++ [.report .gtodMsg])
    | .ok now =>
      if env.sigfillOk = false then (some (-1), evs0 ++ [.report .sigfillMsg])
      else if env.sigmaskSetOk = false then (some (-1), evs0 ++ [.report .sigmaskSetMsg])
      else
        if timerisset ct then
          if env.setClockOk = false then
            endUnblock env (evs0 ++ [.sigBlock, .settod ct false, .report .setClockMsg]) (-1)
          else
            match chmodLoop env.chmodRes with
            | (none, cevs) => (none, evs0 ++ [.sigBlock, .settod ct true] ++ cevs)
            | (some nf, cevs) =>
              if env.restoreClockOk then
                endUnblock env
                  (evs0 ++ [.sigBlock, .settod ct true] ++ cevs ++ [.settod now true])
                  (-(nf : Int))
              else
                endUnblock env
                  (evs0 ++ [.sigBlock, .settod ct true] ++ cevs ++
                    [.settod now false, .report .restoreMsg])
                  (-(nf : Int) - 1)
        else
          match chmodLoop env.chmodRes with
          | (none, cevs) => (none, evs0 ++ [.sigBlock] ++ cevs)
          | (some nf, cevs) => endUnblock env (evs0 ++ [.sigBlock] ++ cevs) (-(nf : Int))

/-- The mutated shared state: the host clock, and the target file's three
timestamps as the kernel would record them. A successful settimeofday sets
the clock; a successful chmod records the current clock as the file's ctime;
no modelled call touches atime or mtime. -/
structure World where
  clock : Timeval
  fctime : Timeval
  fatime : Timeval
  fmtime : Timeval
deriving DecidableEq, Repr

/-- Effect of one event on the world. -/
def stepW (w : World) (e : Event) : World :=
  match e with
  | .settod tv true => { w with clock := tv }
  | .chmodCall true => { w with fctime := w.clock }
  | _ => w

/-- Replay of an event trace over the world. -/
def replay (w : World) (evs : List Event) : World :=
  evs.foldl stepW w

/-- Modelled from the spec: src/touch2.c has no dry-run mode at all (no flag
in main and no branch in change_ctime), and section 4.2 step 3 of the spec
assigns it to the CLI layer outside the core. Following the spec words: query the
file's metadata, derive the instant that would be applied exactly as
change_ctime does, then format and report that instant, perform no
mutation, and return success. -/
def change_ctime_dry (cfg : Config) (env : Env) (ctime0 : Timeval) : Option Int × List Event :=
  match statLoop env.statRes with
  | (.diverge, evs) => (none, evs)
  | (.fail, evs) => (some (-1), evs)
  | (.ok inode, evs0) =>
    (some 0, evs0 ++ [.dryReport (deriveCtime cfg inode ctime0)])

/-- The option-parsing state of main: the two global flags, the reference
file pointer, and the parsed timestamp. -/
structure PState where
  use_atime : Bool
  use_mtime : Bool
  rfile : Option (List Char)
  new_ctime : Timeval
deriving Repr

/-- The ways the option loop of main can exit without reaching the file
loop: the two mutual-exclusion diagnostics, the usage exit (status 1), and
the help exit (status 0). -/
inductive PErr
  | exclusive1
  | exclusive2
  | usage
  | help
deriving DecidableEq, Repr

/-- The option loop of main from touch2.c: scan arguments while they start
with a dash, dispatch on the second character, stop at the first
non-option argument; no remaining file operand is a usage error. The checks
mirror the source: -a and -m reject each other and a set new_ctime with the
first diagnostic; -r rejects a set new_ctime with the second diagnostic;
-t rejects an active selector with the first diagnostic and a set reference
file with the second; -r and -t each consume the following argument. -/
def parseArgs (nowTm : Tm) (mk : Tm → Int) :
    PState → List (List Char) → Except PErr (PState × List (List Char))
  | _, [] => .error .usage
  | st, a :: rest =>
    if a.headD '\x00' = '-' then
      match a.getD 1 '\x00' with
      | 'a' =>
        if st.use_mtime || timerisset st.new_ctime then .error .exclusive1
        else parseArgs nowTm mk { st with use_atime := true } rest
      | 'm' =>
        if st.use_atime || timerisset st.new_ctime then .error .exclusive1
        else parseArgs nowTm mk { st with use_mtime := true } rest
      | 'r' =>
        if timerisset st.new_ctime then .error .exclusive2
        else
          match rest with
          | [] => .error .usage
          | rf :: rest2 => parseArgs nowTm mk { st with rfile := some rf } rest2
      | 't' =>
        if st.use_atime || st.use_mtime then .error .exclusive1
        else if (st.rfile).isSome then .error .exclusive2
        else
          match rest with
          | [] => .error .usage
          | lit :: rest2 =>
            parseArgs nowTm mk { st with new_ctime := str2timeval nowTm mk lit } rest2
      | 'h' => .error .help
      | _ => .error .usage
    else .ok (st, a :: rest)

/-- The stat retry loop main runs on the reference file: none is divergence,
some none is the fatal non-EINTR failure (exit 1), some some is success. -/
def rstatLoop : List (Except Nat StatBuf) → Option (Option StatBuf)
  | [] => none
  | .ok sb :: _ => some (some sb)
  | .error e :: rs => if e = EINTR then rstatLoop rs else some none

/-- The copy of the reference file's timestamp into new_ctime: atime under
-a, mtime under -m, ctime otherwise. -/
def rfileTv (st : PState) (sb : StatBuf) : Timeval :=
  if st.use_atime then ⟨sb.st_atime, sb.st_atim_nsec / 1000⟩
  else if st.use_mtime then ⟨sb.st_mtime, sb.st_mtim_nsec / 1000⟩
  else ⟨sb.st_ctime, sb.st_ctim_nsec / 1000⟩

/-- The file loop of main: call change_ctime on each operand in order,
recording the operand, the returned status and the event trace; a
divergence inside change_ctime means the remaining operands are never
reached. -/
def processFiles (cfg : Config) (tv : Timeval) (fenv : List Char → Env) :
    List (List Char) → Option (List (List Char × Int × List Event))
  | [] => some []
  | f :: fs =>
    match change_ctime cfg (fenv f) tv with
    | (none, _) => none
    | (some r, evs) =>
      match processFiles cfg tv fenv fs with
      | none => none
      | some l => some ((f, r, evs) :: l)

/-- Events at the level of main: each change_ctime event tagged with its
operand, plus the per-file error line main prints when change_ctime
returns a negative status. -/
inductive MEvent
  | ev (path : List Char) (e : Event)
  | errLine (path : List Char)
deriving DecidableEq, Repr

/-- The flat trace of a completed file loop, in processing order. -/
def mainTrace (l : List (List Char × Int × List Event)) : List MEvent :=
  match l with
  | [] => []
  | (f, r, evs) :: rest =>
    evs.map (MEvent.ev f) ++ (if r < 0 then [MEvent.errLine f] else []) ++ mainTrace rest

/-- The possible outcomes of main: an exit through usage (carrying the exit
status), the two mutual-exclusion diagnostics followed by usage exit 1, the
fatal reference-file stat failure (exit 1), a completed file loop (exit 0,
regardless of per-file failures), or divergence inside a retry loop. -/
inductive MainOut
  | usage (code : Int)
  | conflict1
  | conflict2
  | rfileFatal
  | run (perFile : List (List Char × Int × List Event))
  | hang
deriving DecidableEq, Repr

/-- main from touch2.c: parse options, optionally resolve the reference
file's timestamp, then run the file loop; the process exits 0 whenever the
file loop completes. -/
def mainRun (nowTm : Tm) (mk : Tm → Int) (rfEnv : List (Except Nat StatBuf))
    (fenv : List Char → Env) (args : List (List Char)) : MainOut :=
  match parseArgs nowTm mk ⟨false, false, none, ⟨0, 0⟩⟩ args with
  | .error .exclusive1 => .conflict1
  | .error .exclusive2 => .conflict2
  | .error .usage => .usage 1
  | .error .help => .usage 0
  | .ok (st, files) =>
    match st.rfile with
    | none =>
      match processFiles ⟨st.use_atime, st.use_mtime⟩ st.new_ctime fenv files with
      | none => .hang
      | some l => .run l
    | some _ =>
      match rstatLoop rfEnv with
      | none => .hang
      | some none => .rfileFatal
      | some (some sb) =>
        match processFiles ⟨st.use_atime, st.use_mtime⟩ (rfileTv st sb) fenv files with
        | none => .hang
        | some l => .run l

/-- Well-formed option groups as they appear on a command line, used to
state the configuration-conflict claim. -/
inductive Opt
  | a
  | m
  | r (path : List Char)
  | t (lit : List Char)
deriving DecidableEq, Repr

/-- The argument vector fragment of one option group. -/
def optArgs : Opt → List (List Char)
  | .a => [['-', 'a']]
  | .m => [['-', 'm']]
  | .r p => [['-', 'r'], p]
  | .t l => [['-', 't'], l]

/-- The argument vector fragment of a sequence of option groups. -/
def optsArgs (os : List Opt) : List (List Char) :=
  match os with
  | [] => []
  | o :: rest => optArgs o ++ optsArgs rest

/-- Whether a -t group occurs. -/
def hasT (os : List Opt) : Bool :=
  os.any fun o => match o with | .t _ => true | _ => false

/-- Whether a selector group (-a or -m) occurs. -/
def hasSel (os : List Opt) : Bool :=
  os.any fun o => match o with | .a => true | .m => true | _ => false

/-- Whether a -r group occurs. -/
def hasR (os : List Opt) : Bool :=
  os.any fun o => match o with | .r _ => true | _ => false

/-- A concrete current local broken-down time for concrete evaluations. -/
def nowTm0 : Tm :=
  ⟨0, 0, 0, 0, 0, 0, 0⟩

/-- A concrete mktime that returns the seconds field only. -/
def mkSec : Tm → Int :=
  fun tm => tm.tm_sec

/-- A concrete mktime modelling UTC resolution with 30-day months and
365-day years; it maps 1970-01-01 00:00:00 to zero, exactly like the real
mktime under TZ=UTC. -/
def mkEpoch : Tm → Int :=
  fun tm =>
    (tm.tm_year - 70) * 31536000 + tm.tm_mon * 2592000 + (tm.tm_mday - 1) * 86400 +
      tm.tm_hour * 3600 + tm.tm_min * 60 + tm.tm_sec

/-- A concrete target-file inode. -/
def inode0 : StatBuf :=
  ⟨420, 11, 0, 22, 0, 33, 0⟩

/-- A concrete reference-file inode with ctime 7777. -/
def inodeR : StatBuf :=
  ⟨420, 1111, 0, 2222, 0, 7777, 0⟩

/-- An oracle on which every system call succeeds at once; the saved current
time is 50 seconds. -/
def envOK : Env :=
  ⟨[.ok inode0], .ok ⟨50, 0⟩, true, true, true, [none], true, true⟩

/-- An oracle whose first stat fails with EACCES (13). -/
def envStatFail : Env :=
  { envOK with statRes := [.error 13] }

/-- An oracle on which restoring the clock fails. -/
def envRestoreFail : Env :=
  { envOK with restoreClockOk := false }

/-- An oracle on which chmod fails k consecutive times with EPERM (1) and
the oracle ends: the chmod retry loop of the source cannot exit on it. -/
def envPersist (k : Nat) : Env :=
  { envOK with chmodRes := List.replicate k (some 1) }

/-- The configuration with neither selector. -/
def cfg0 : Config :=
  ⟨false, false⟩

/-- A per-file oracle where file f cannot be statted and every other file
succeeds. -/
def fenvStatFail : List Char → Env :=
  fun p => if p = ['f'] then envStatFail else envOK

/-- A per-file oracle where restoring the clock fails for file f and every
other file succeeds. -/
def fenvRestoreFail : List Char → Env :=
  fun p => if p = ['f'] then envRestoreFail else envOK

/-- The per-file oracle where every file succeeds. -/
def fenvOK : List Char → Env :=
  fun _ => envOK

/-! Helper lemmas about the string splitting used to relate the sequential
field consumption of str2timeval to the segment-wise specification view. -/

theorem splitColon_ne_nil (s : List Char) : splitColon s ≠ [] := by
  induction s with
  | nil => simp [splitColon]
  | cons c cs ih =>
    by_cases hc : c = ':'
    · simp [splitColon, hc]
    · cases h : splitColon cs with
      | nil => exact absurd h ih
      | cons p ps => simp [splitColon, hc, h]

theorem splitColon_length (s : List Char) : (splitColon s).length = nstrchr s ':' + 1 := by
  induction s with
  | nil => simp [splitColon, nstrchr]
  | cons c cs ih =>
    by_cases hc : c = ':'
    · simp [splitColon, nstrchr, hc]
      omega
    · cases h : splitColon cs with
      | nil => exact absurd h (splitColon_ne_nil cs)
      | cons p ps =>
        rw [h] at ih
        simp [splitColon, nstrchr, hc, h]
        simp at ih
        omega

theorem splitColon_no_colon (s : List Char) : ∀ q ∈ splitColon s, ':' ∉ q := by
  induction s with
  | nil =>
    intro q hq
    simp [splitColon] at hq
    subst hq
    simp
  | cons c cs ih =>
    intro q hq
    by_cases hc : c = ':'
    · simp [splitColon, hc] at hq
      rcases hq with h | h
      · subst h; simp
      · exact ih q h
    · cases h : splitColon cs with
      | nil => exact absurd h (splitColon_ne_nil cs)
      | cons p ps =>
        simp [splitColon, hc, h] at hq
        rcases hq with h2 | h2
        · subst h2
          intro hmem
          rcases List.mem_cons.mp hmem with h3 | h3
          · exact hc h3.symm
          · exact ih p (by simp [h]) h3
        · exact ih q (by simp [h, h2])

theorem joinColon_cons_cons (p q : List Char) (ps : List (List Char)) :
    joinColon (p :: q :: ps) = p ++ ':' :: joinColon (q :: ps) := rfl

theorem joinColon_splitColon (s : List Char) : joinColon (splitColon s) = s := by
  induction s with
  | nil => rfl
  | cons c cs ih =>
    by_cases hc : c = ':'
    · subst hc
      cases h : splitColon cs with
      | nil => exact absurd h (splitColon_ne_nil cs)
      | cons p ps =>
        rw [h] at ih
        simp [splitColon, h, joinColon_cons_cons, ih]
    · cases h : splitColon cs with
      | nil => exact absurd h (splitColon_ne_nil cs)
      | cons p ps =>
        rw [h] at ih
        cases ps with
        | nil =>
          simp [splitColon, hc, h, joinColon]
          exact ih
        | cons q ps2 =>
          simp [splitColon, hc, h, joinColon_cons_cons]
          simp [joinColon_cons_cons] at ih
          simp [ih]

theorem splitColon_append (p r : List Char) (hp : ':' ∉ p) :
    splitColon (p ++ ':' :: r) = p :: splitColon r := by
  induction p with
  | nil => simp [splitColon]
  | cons c p2 ih =>
    have hc : c ≠ ':' := fun h => hp (by simp [h])
    have hp2 : ':' ∉ p2 := fun h => hp (List.mem_cons_of_mem _ h)
    have ih2 := ih hp2
    simp [List.cons_append, splitColon, hc, ih2]

theorem splitColon_of_no_colon (p : List Char) (hp : ':' ∉ p) : splitColon p = [p] := by
  induction p with
  | nil => rfl
  | cons c p2 ih =>
    have hc : c ≠ ':' := fun h => hp (by simp [h])
    have hp2 : ':' ∉ p2 := fun h => hp (List.mem_cons_of_mem _ h)
    simp [splitColon, hc, ih hp2]

theorem strchr_append (p r : List Char) (c : Char) (hp : c ∉ p) :
    strchr (p ++ c :: r) c = some (c :: r) := by
  induction p with
  | nil => simp [strchr]
  | cons x p2 ih =>
    have hx : x ≠ c := fun h => hp (by simp [h])
    have hp2 : c ∉ p2 := fun h => hp (List.mem_cons_of_mem _ h)
    simp [strchr, hx, ih hp2]

theorem strchr_not_mem (s : List Char) (c : Char) (h : c ∉ s) : strchr s c = none := by
  induction s with
  | nil => rfl
  | cons x s2 ih =>
    have hx : x ≠ c := fun he => h (by simp [he])
    have h2 : c ∉ s2 := fun he => h (List.mem_cons_of_mem _ he)
    simp [strchr, hx, ih h2]

theorem afterChar_append (p r : List Char) (hp : ':' ∉ p) :
    afterChar (p ++ ':' :: r) ':' = r := by
  simp [afterChar, strchr_append p r ':' hp]

theorem parseDigits_append_stop (p r : List Char) (c : Char) (hc : isDigitC c = false) :
    ∀ acc, parseDigits (p ++ c :: r) acc = parseDigits p acc := by
  induction p with
  | nil =>
    intro acc
    simp [parseDigits, hc]
  | cons x p2 ih =>
    intro acc
    by_cases hx : isDigitC x
    · simp [parseDigits, hx, ih]
    · simp [parseDigits, hx]

theorem dropWhile_append_of_ne_nil (q : Char → Bool) (p l : List Char)
    (h : p.dropWhile q ≠ []) : (p ++ l).dropWhile q = p.dropWhile q ++ l := by
  induction p with
  | nil => simp at h
  | cons x p2 ih =>
    cases hx : q x with
    | true =>
      rw [List.dropWhile_cons_of_pos hx] at h
      rw [List.cons_append, List.dropWhile_cons_of_pos hx, List.dropWhile_cons_of_pos hx]
      exact ih h
    | false =>
      rw [List.cons_append, List.dropWhile_cons_of_neg (by simp [hx]),
        List.dropWhile_cons_of_neg (by simp [hx]), List.cons_append]

theorem dropWhile_append_of_nil (q : Char → Bool) (p l : List Char)
    (h : p.dropWhile q = []) : (p ++ l).dropWhile q = l.dropWhile q := by
  induction p with
  | nil => simp
  | cons x p2 ih =>
    cases hx : q x with
    | true =>
      rw [List.dropWhile_cons_of_pos hx] at h
      rw [List.cons_append, List.dropWhile_cons_of_pos hx]
      exact ih h
    | false =>
      rw [List.dropWhile_cons_of_neg (by simp [hx])] at h
      exact absurd h (by simp)

theorem atoi_append_stop (p r : List Char) (c : Char)
    (hsp : isSpaceC c = false) (hd : isDigitC c = false) (hm : c ≠ '-') (hpl : c ≠ '+') :
    atoi (p ++ c :: r) = atoi p := by
  cases h : p.dropWhile isSpaceC with
  | nil =>
    have h2 : (p ++ c :: r).dropWhile isSpaceC = (c :: r).dropWhile isSpaceC :=
      dropWhile_append_of_nil _ p (c :: r) h
    have h3 : (c :: r).dropWhile isSpaceC = c :: r := by simp [List.dropWhile_cons, hsp]
    simp [atoi, h, h2, h3, hm, hpl, parseDigits, hd]
  | cons x xs =>
    have h2 : (p ++ c :: r).dropWhile isSpaceC = x :: (xs ++ c :: r) := by
      rw [dropWhile_append_of_ne_nil _ p (c :: r) (by simp [h]), h]
      simp
    by_cases hx : x = '-'
    · simp [atoi, h, h2, hx, parseDigits_append_stop _ _ _ hd]
    · by_cases hx2 : x = '+'
      · simp [atoi, h, h2, hx, hx2, parseDigits_append_stop _ _ _ hd]
      · have := parseDigits_append_stop (x :: xs) r c hd 0
        simp only [List.cons_append] at this
        simp [atoi, h, h2, hx, hx2, this]

theorem atoi_joinColon (p : List Char) (ps : List (List Char)) (_hp : ':' ∉ p) :
    atoi (joinColon (p :: ps)) = atoi p := by
  cases ps with
  | nil => rfl
  | cons q ps2 =>
    rw [joinColon_cons_cons]
    exact atoi_append_stop p _ ':' (by decide) (by decide) (by decide) (by decide)

theorem fracUsec_no_dot (s : List Char) (h : '.' ∉ s) : fracUsec s = 0 := by
  simp [fracUsec, strchr_not_mem s '.' h]

theorem fracUsec_append_cons (p : List Char) (c : Char) (r : List Char) (hp : '.' ∉ p) :
    fracUsec (p ++ '.' :: c :: r) = atol (c :: r) := by
  simp [fracUsec, strchr_append p (c :: r) '.' hp]

theorem isDigitC_ne (c d : Char) (h : isDigitC c = true) (hd : d.toNat < 48 ∨ 57 < d.toNat) :
    c ≠ d := by
  intro he
  subst he
  simp [isDigitC] at h
  omega

theorem isSpaceC_eq_false_of_digit (c : Char) (h : isDigitC c = true) : isSpaceC c = false := by
  have h1 : c ≠ ' ' := isDigitC_ne c ' ' h (by decide)
  have h2 : c ≠ '\t' := isDigitC_ne c '\t' h (by decide)
  have h3 : c ≠ '\n' := isDigitC_ne c '\n' h (by decide)
  have h4 : c ≠ '\x0b' := isDigitC_ne c '\x0b' h (by decide)
  have h5 : c ≠ '\x0c' := isDigitC_ne c '\x0c' h (by decide)
  have h6 : c ≠ '\r' := isDigitC_ne c '\r' h (by decide)
  simp [isSpaceC, h1, h2, h3, h4, h5, h6]

theorem atol_digits (c : Char) (r : List Char) (h2 : ((c :: r).all isDigitC) = true) :
    atol (c :: r) = (parseDigits (c :: r) 0 : Int) := by
  have hc : isDigitC c = true := by
    simp [List.all_cons] at h2
    exact h2.1
  have hsp := isSpaceC_eq_false_of_digit c hc
  have hm : c ≠ '-' := isDigitC_ne c '-' hc (by decide)
  have hp : c ≠ '+' := isDigitC_ne c '+' hc (by decide)
  simp [atol, atoi, List.dropWhile_cons, hsp, hm, hp]

theorem parseDigits_lt (ds : List Char) :
    ∀ acc, parseDigits ds acc < (acc + 1) * 10 ^ ds.length := by
  induction ds with
  | nil =>
    intro acc
    simp [parseDigits]
  | cons c r ih =>
    intro acc
    by_cases hc : isDigitC c
    · have h9 : c.toNat - 48 ≤ 9 := by
        simp [isDigitC] at hc
        omega
      have hstep : 10 * acc + (c.toNat - 48) + 1 ≤ 10 * (acc + 1) := by omega
      calc parseDigits (c :: r) acc = parseDigits r (10 * acc + (c.toNat - 48)) := by
            simp [parseDigits, hc]
        _ < (10 * acc + (c.toNat - 48) + 1) * 10 ^ r.length := ih _
        _ ≤ 10 * (acc + 1) * 10 ^ r.length := Nat.mul_le_mul_right _ hstep
        _ = (acc + 1) * 10 ^ (c :: r).length := by
            simp [List.length_cons, pow_succ]
            ring
    · have hpos : 0 < 10 ^ (c :: r).length := Nat.pos_pow_of_pos _ (by norm_num)
      calc parseDigits (c :: r) acc = acc := by simp [parseDigits, hc]
        _ < (acc + 1) * 1 := by omega
        _ ≤ (acc + 1) * 10 ^ (c :: r).length := Nat.mul_le_mul_left _ hpos

theorem tmAssemble_of_eq0 (nowTm : Tm) (s : List Char) (h : nstrchr s ':' = 0) :
    tmAssemble nowTm s = ({ nowTm with tm_sec := atoi s }, s) := by
  simp [tmAssemble, h]

theorem tmAssemble_of_eq1 (nowTm : Tm) (s : List Char) (h : nstrchr s ':' = 1) :
    tmAssemble nowTm s =
      ({ nowTm with tm_min := atoi s, tm_sec := atoi (afterChar s ':') }, afterChar s ':') := by
  simp [tmAssemble, h]

theorem tmAssemble_of_eq2 (nowTm : Tm) (s : List Char) (h : nstrchr s ':' = 2) :
    tmAssemble nowTm s =
      ({ nowTm with tm_hour := atoi s, tm_min := atoi (afterChar s ':'),
                    tm_sec := atoi (afterChar (afterChar s ':') ':') },
       afterChar (afterChar s ':') ':') := by
  simp [tmAssemble, h]

theorem tmAssemble_of_eq3 (nowTm : Tm) (s : List Char) (h : nstrchr s ':' = 3) :
    tmAssemble nowTm s =
      ({ nowTm with tm_mday := atoi s, tm_hour := atoi (afterChar s ':'),
                    tm_min := atoi (afterChar (afterChar s ':') ':'),
                    tm_sec := atoi (afterChar (afterChar (afterChar s ':') ':') ':') },
       afterChar (afterChar (afterChar s ':') ':') ':') := by
  simp [tmAssemble, h]

theorem tmAssemble_of_eq4 (nowTm : Tm) (s : List Char) (h : nstrchr s ':' = 4) :
    tmAssemble nowTm s =
      ({ nowTm with tm_mon := atoi s - 1, tm_mday := atoi (afterChar s ':'),
                    tm_hour := atoi (afterChar (afterChar s ':') ':'),
                    tm_min := atoi (afterChar (afterChar (afterChar s ':') ':') ':'),
                    tm_sec := atoi (afterChar (afterChar (afterChar (afterChar s ':') ':') ':') ':') },
       afterChar (afterChar (afterChar (afterChar s ':') ':') ':') ':') := by
  simp [tmAssemble, h]

theorem tmAssemble_of_gt4 (nowTm : Tm) (s : List Char) (h : nstrchr s ':' > 4) :
    tmAssemble nowTm s =
      ({ nowTm with tm_year := atoi s - 1900, tm_mon := atoi (afterChar s ':') - 1,
                    tm_mday := atoi (afterChar (afterChar s ':') ':'),
                    tm_hour := atoi (afterChar (afterChar (afterChar s ':') ':') ':'),
                    tm_min := atoi (afterChar (afterChar (afterChar (afterChar s ':') ':') ':') ':'),
                    tm_sec := atoi (afterChar (afterChar (afterChar (afterChar (afterChar s ':') ':') ':') ':') ':') },
       afterChar (afterChar (afterChar (afterChar (afterChar s ':') ':') ':') ':') ':') := by
  have h3 : nstrchr s ':' > 3 := by omega
  have h2 : nstrchr s ':' > 2 := by omega
  have h1 : nstrchr s ':' > 1 := by omega
  have h0 : nstrchr s ':' > 0 := by omega
  simp only [tmAssemble, if_pos h, if_pos h3, if_pos h2, if_pos h1, if_pos h0]

theorem tmAssemble_eq (nowTm : Tm) (s : List Char) :
    tmAssemble nowTm s =
      (tmFields nowTm (splitColon s),
       joinColon ((splitColon s).drop (min ((splitColon s).length - 1) 5))) := by
  obtain ⟨parts, hp⟩ : ∃ parts, splitColon s = parts := ⟨_, rfl⟩
  have hjs : joinColon parts = s := by
    rw [← hp]
    exact joinColon_splitColon s
  have hnc : ∀ p ∈ parts, ':' ∉ p := by
    rw [← hp]
    exact splitColon_no_colon s
  have hn : nstrchr s ':' = parts.length - 1 := by
    have hl := splitColon_length s
    rw [hp] at hl
    omega
  subst hjs
  rw [hp]
  rcases parts with _ | ⟨p0, _ | ⟨p1, _ | ⟨p2, _ | ⟨p3, _ | ⟨p4, _ | ⟨p5, ps⟩⟩⟩⟩⟩⟩
  · exact absurd hp (splitColon_ne_nil _)
  · have hn0 : nstrchr (joinColon [p0]) ':' = 0 := by simp [hn]
    rw [tmAssemble_of_eq0 _ _ hn0]
    simp [tmFields, joinColon]
  · have hn1 : nstrchr (joinColon [p0, p1]) ':' = 1 := by simp [hn]
    have h0 : ':' ∉ p0 := hnc _ (by simp)
    have e1 : afterChar (p0 ++ ':' :: p1) ':' = p1 := afterChar_append p0 _ h0
    have a0 : atoi (p0 ++ ':' :: p1) = atoi p0 :=
      atoi_append_stop p0 _ ':' (by decide) (by decide) (by decide) (by decide)
    rw [tmAssemble_of_eq1 _ _ hn1]
    simp [e1, a0, tmFields, joinColon]
  · have hn2 : nstrchr (joinColon [p0, p1, p2]) ':' = 2 := by simp [hn]
    have h0 : ':' ∉ p0 := hnc _ (by simp)
    have h1 : ':' ∉ p1 := hnc _ (by simp)
    have e1 : afterChar (p0 ++ ':' :: (p1 ++ ':' :: p2)) ':' = p1 ++ ':' :: p2 :=
      afterChar_append p0 _ h0
    have e2 : afterChar (p1 ++ ':' :: p2) ':' = p2 := afterChar_append p1 _ h1
    have a0 : atoi (p0 ++ ':' :: (p1 ++ ':' :: p2)) = atoi p0 :=
      atoi_append_stop p0 _ ':' (by decide) (by decide) (by decide) (by decide)
    have a1 : atoi (p1 ++ ':' :: p2) = atoi p1 :=
      atoi_append_stop p1 _ ':' (by decide) (by decide) (by decide) (by decide)
    rw [tmAssemble_of_eq2 _ _ hn2]
    simp [e1, e2, a0, a1, tmFields, joinColon]
  · have hn3 : nstrchr (joinColon [p0, p1, p2, p3]) ':' = 3 := by simp [hn]
    have h0 : ':' ∉ p0 := hnc _ (by simp)
    have h1 : ':' ∉ p1 := hnc _ (by simp)
    have h2 : ':' ∉ p2 := hnc _ (by simp)
    have e1 : afterChar (p0 ++ ':' :: (p1 ++ ':' :: (p2 ++ ':' :: p3))) ':' =
        p1 ++ ':' :: (p2 ++ ':' :: p3) := afterChar_append p0 _ h0
    have e2 : afterChar (p1 ++ ':' :: (p2 ++ ':' :: p3)) ':' = p2 ++ ':' :: p3 :=
      afterChar_append p1 _ h1
    have e3 : afterChar (p2 ++ ':' :: p3) ':' = p3 := afterChar_append p2 _ h2
    have a0 : atoi (p0 ++ ':' :: (p1 ++ ':' :: (p2 ++ ':' :: p3))) = atoi p0 :=
      atoi_append_stop p0 _ ':' (by decide) (by decide) (by decide) (by decide)
    have a1 : atoi (p1 ++ ':' :: (p2 ++ ':' :: p3)) = atoi p1 :=
      atoi_append_stop p1 _ ':' (by decide) (by decide) (by decide) (by decide)
    have a2 : atoi (p2 ++ ':' :: p3) = atoi p2 :=
      atoi_append_stop p2 _ ':' (by decide) (by decide) (by decide) (by decide)
    rw [tmAssemble_of_eq3 _ _ hn3]
    simp [e1, e2, e3, a0, a1, a2, tmFields, joinColon]
  · have hn4 : nstrchr (joinColon [p0, p1, p2, p3, p4]) ':' = 4 := by simp [hn]
    have h0 : ':' ∉ p0 := hnc _ (by simp)
    have h1 : ':' ∉ p1 := hnc _ (by simp)
    have h2 : ':' ∉ p2 := hnc _ (by simp)
    have h3 : ':' ∉ p3 := hnc _ (by simp)
    have e1 : afterChar (p0 ++ ':' :: (p1 ++ ':' :: (p2 ++ ':' :: (p3 ++ ':' :: p4)))) ':' =
        p1 ++ ':' :: (p2 ++ ':' :: (p3 ++ ':' :: p4)) := afterChar_append p0 _ h0
    have e2 : afterChar (p1 ++ ':' :: (p2 ++ ':' :: (p3 ++ ':' :: p4))) ':' =
        p2 ++ ':' :: (p3 ++ ':' :: p4) := afterChar_append p1 _ h1
    have e3 : afterChar (p2 ++ ':' :: (p3 ++ ':' :: p4)) ':' = p3 ++ ':' :: p4 :=
      afterChar_append p2 _ h2
    have e4 : afterChar (p3 ++ ':' :: p4) ':' = p4 := afterChar_append p3 _ h3
    have a0 : atoi (p0 ++ ':' :: (p1 ++ ':' :: (p2 ++ ':' :: (p3 ++ ':' :: p4)))) = atoi p0 :=
      atoi_append_stop p0 _ ':' (by decide) (by decide) (by decide) (by decide)
    have a1 : atoi (p1 ++ ':' :: (p2 ++ ':' :: (p3 ++ ':' :: p4))) = atoi p1 :=
      atoi_append_stop p1 _ ':' (by decide) (by decide) (by decide) (by decide)
    have a2 : atoi (p2 ++ ':' :: (p3 ++ ':' :: p4)) = atoi p2 :=
      atoi_append_stop p2 _ ':' (by decide) (by decide) (by decide) (by decide)
    have a3 : atoi (p3 ++ ':' :: p4) = atoi p3 :=
      atoi_append_stop p3 _ ':' (by decide) (by decide) (by decide) (by decide)
    rw [tmAssemble_of_eq4 _ _ hn4]
    simp [e1, e2, e3, e4, a0, a1, a2, a3, tmFields, joinColon]
  · have hn5 : nstrchr (joinColon (p0 :: p1 :: p2 :: p3 :: p4 :: p5 :: ps)) ':' > 4 := by
      rw [hn]
      simp
    have h0 : ':' ∉ p0 := hnc _ (by simp)
    have h1 : ':' ∉ p1 := hnc _ (by simp)
    have h2 : ':' ∉ p2 := hnc _ (by simp)
    have h3 : ':' ∉ p3 := hnc _ (by simp)
    have h4 : ':' ∉ p4 := hnc _ (by simp)
    have h5 : ':' ∉ p5 := hnc _ (by simp)
    have e1 : afterChar
        (p0 ++ ':' :: (p1 ++ ':' :: (p2 ++ ':' :: (p3 ++ ':' :: (p4 ++ ':' :: joinColon (p5 :: ps)))))) ':' =
        p1 ++ ':' :: (p2 ++ ':' :: (p3 ++ ':' :: (p4 ++ ':' :: joinColon (p5 :: ps)))) :=
      afterChar_append p0 _ h0
    have e2 : afterChar
        (p1 ++ ':' :: (p2 ++ ':' :: (p3 ++ ':' :: (p4 ++ ':' :: joinColon (p5 :: ps))))) ':' =
        p2 ++ ':' :: (p3 ++ ':' :: (p4 ++ ':' :: joinColon (p5 :: ps))) :=
      afterChar_append p1 _ h1
    have e3 : afterChar (p2 ++ ':' :: (p3 ++ ':' :: (p4 ++ ':' :: joinColon (p5 :: ps)))) ':' =
        p3 ++ ':' :: (p4 ++ ':' :: joinColon (p5 :: ps)) :=
      afterChar_append p2 _ h2
    have e4 : afterChar (p3 ++ ':' :: (p4 ++ ':' :: joinColon (p5 :: ps))) ':' =
        p4 ++ ':' :: joinColon (p5 :: ps) :=
      afterChar_append p3 _ h3
    have e5 : afterChar (p4 ++ ':' :: joinColon (p5 :: ps)) ':' = joinColon (p5 :: ps) :=
      afterChar_append p4 _ h4
    have a0 : atoi
        (p0 ++ ':' :: (p1 ++ ':' :: (p2 ++ ':' :: (p3 ++ ':' :: (p4 ++ ':' :: joinColon (p5 :: ps)))))) = atoi p0 :=
      atoi_append_stop p0 _ ':' (by decide) (by decide) (by decide) (by decide)
    have a1 : atoi
        (p1 ++ ':' :: (p2 ++ ':' :: (p3 ++ ':' :: (p4 ++ ':' :: joinColon (p5 :: ps))))) = atoi p1 :=
      atoi_append_stop p1 _ ':' (by decide) (by decide) (by decide) (by decide)
    have a2 : atoi (p2 ++ ':' :: (p3 ++ ':' :: (p4 ++ ':' :: joinColon (p5 :: ps)))) = atoi p2 :=
      atoi_append_stop p2 _ ':' (by decide) (by decide) (by decide) (by decide)
    have a3 : atoi (p3 ++ ':' :: (p4 ++ ':' :: joinColon (p5 :: ps))) = atoi p3 :=
      atoi_append_stop p3 _ ':' (by decide) (by decide) (by decide) (by decide)
    have a4 : atoi (p4 ++ ':' :: joinColon (p5 :: ps)) = atoi p4 :=
      atoi_append_stop p4 _ ':' (by decide) (by decide) (by decide) (by decide)
    have a5 : atoi (joinColon (p5 :: ps)) = atoi p5 := atoi_joinColon _ _ h5
    have hmin : min ((p0 :: p1 :: p2 :: p3 :: p4 :: p5 :: ps).length - 1) 5 = 5 := by
      simp only [List.length_cons]
      omega
    rw [tmAssemble_of_gt4 _ _ hn5]
    simp [e1, e2, e3, e4, e5, a0, a1, a2, a3, a4, a5, tmFields, hmin, joinColon_cons_cons]

theorem not_mem_of_all_digit (p : List Char) (hp : p.all isDigitC = true) (d : Char)
    (hd : d.toNat < 48 ∨ 57 < d.toNat) : d ∉ p := by
  intro hmem
  have hdd := List.all_eq_true.mp hp d hmem
  simp [isDigitC] at hdd
  omega

/-- C2: for every literal string, str2timeval counts colon delimiters to
decide which of year, month, day, hour, minute are present (minute and
second being the mandatory rightmost fields); each absent field keeps the
current local date and time value; a present month is converted from
1-based to 0-based; a present year has 1900 subtracted; a field whose text
is not a valid number parses as zero via atoi rather than failing; and the
resulting seconds value is the local-timezone resolution (mktime) of the
assembled broken-down time. Stated as a refinement: the source function
equals the specification-side segment description for every input. -/
theorem C2_str2timeval_matches_spec (nowTm : Tm) (mk : Tm → Int) (s : List Char) :
    str2timeval nowTm mk s = str2timeval_spec nowTm mk s := by
  simp only [str2timeval, str2timeval_spec, tmAssemble_eq]

/-- C7 counterexample: the literal 1:2.9999999 produces a microsecond
component of 9999999, outside the claimed range. The resolver stores atol
of the fraction text without any range enforcement. -/
theorem C7_usec_range_counterexample :
    (str2timeval nowTm0 mkSec ['1', ':', '2', '.', '9', '9', '9', '9', '9', '9', '9']).usec =
      9999999 ∧
    ¬((str2timeval nowTm0 mkSec
        ['1', ':', '2', '.', '9', '9', '9', '9', '9', '9', '9']).usec < 999999) := by
  decide

/-- C7 amended: the resolver performs no range check on microseconds; it
stores atol of the text after the dot verbatim, so only when the fraction
suffix consists of at most six decimal digits is the microsecond component
guaranteed to lie in the closed interval from 0 to 999999 (the bound 999999
itself is attained); the unset value is exactly (0,0). -/
theorem C7_usec_bounded_for_six_digits (nowTm : Tm) (mk : Tm → Int) (s p : List Char)
    (c : Char) (ds : List Char) (hsnd : (tmAssemble nowTm s).2 = p ++ '.' :: c :: ds)
    (hp : '.' ∉ p) (hdig : ((c :: ds).all isDigitC) = true) (hlen : (c :: ds).length ≤ 6) :
    0 ≤ (str2timeval nowTm mk s).usec ∧ (str2timeval nowTm mk s).usec ≤ 999999 ∧
    timerisset ⟨0, 0⟩ = false := by
  have husec : (str2timeval nowTm mk s).usec = (parseDigits (c :: ds) 0 : Int) := by
    show fracUsec (tmAssemble nowTm s).2 = _
    rw [hsnd, fracUsec_append_cons _ _ _ hp, atol_digits _ _ hdig]
  have hlt : parseDigits (c :: ds) 0 < 10 ^ (c :: ds).length := by
    have h1 := parseDigits_lt (c :: ds) 0
    simpa using h1
  have hle : (10 : Nat) ^ (c :: ds).length ≤ 10 ^ 6 :=
    Nat.pow_le_pow_right (by norm_num) hlen
  have h6 : (10 : Nat) ^ 6 = 1000000 := by norm_num
  have hlt2 : parseDigits (c :: ds) 0 < 1000000 := lt_of_lt_of_le hlt (h6 ▸ hle)
  refine ⟨?_, ?_, by decide⟩
  · rw [husec]
    positivity
  · rw [husec]
    have hfin : parseDigits (c :: ds) 0 ≤ 999999 := by omega
    exact_mod_cast hfin

/-- C7 witness: a concrete run of the amended statement on the literal
1:2.3. -/
theorem C7_usec_bounded_witness :
    0 ≤ (str2timeval nowTm0 mkSec ['1', ':', '2', '.', '3']).usec ∧
    (str2timeval nowTm0 mkSec ['1', ':', '2', '.', '3']).usec ≤ 999999 ∧
    timerisset ⟨0, 0⟩ = false :=
  C7_usec_bounded_for_six_digits nowTm0 mkSec ['1', ':', '2', '.', '3'] ['2'] '3' []
    (by decide) (by decide) (by decide) (by decide)

/-- C10: the number of fields str2timeval treats as present is the count of
colons anywhere in the whole literal, including after the dot fraction
marker; for a literal of the shape hh:mm:ss.uu:uu the three delimiters make
the parser assign the leading component to the day field and shift every
later field: hours get the second component, minutes the third, seconds the
text after the colon inside the fraction, and the fraction itself is
lost (microseconds 0). -/
theorem C10_colon_count_includes_fraction (nowTm : Tm) (mk : Tm → Int)
    (a b c d e : List Char)
    (ha : a.all isDigitC = true) (hb : b.all isDigitC = true) (hc : c.all isDigitC = true)
    (hd : d.all isDigitC = true) (he : e.all isDigitC = true) :
    nstrchr (a ++ ':' :: (b ++ ':' :: (c ++ '.' :: (d ++ ':' :: e)))) ':' = 3 ∧
    str2timeval nowTm mk (a ++ ':' :: (b ++ ':' :: (c ++ '.' :: (d ++ ':' :: e)))) =
      ⟨mk { nowTm with tm_mday := atoi a, tm_hour := atoi b, tm_min := atoi c,
                       tm_sec := atoi e }, 0⟩ := by
  have hca : ':' ∉ a := not_mem_of_all_digit a ha ':' (by decide)
  have hcb : ':' ∉ b := not_mem_of_all_digit b hb ':' (by decide)
  have hcc : ':' ∉ c := not_mem_of_all_digit c hc ':' (by decide)
  have hcd : ':' ∉ d := not_mem_of_all_digit d hd ':' (by decide)
  have hce : ':' ∉ e := not_mem_of_all_digit e he ':' (by decide)
  have hde : '.' ∉ e := not_mem_of_all_digit e he '.' (by decide)
  have hcd2 : ':' ∉ c ++ '.' :: d := by
    intro hmem
    rcases List.mem_append.mp hmem with h | h
    · exact hcc h
    · rcases List.mem_cons.mp h with h2 | h2
      · exact absurd h2 (by decide)
      · exact hcd h2
  have hassoc : c ++ '.' :: (d ++ ':' :: e) = (c ++ '.' :: d) ++ ':' :: e := by
    simp
  have hsplit : splitColon (a ++ ':' :: (b ++ ':' :: (c ++ '.' :: (d ++ ':' :: e)))) =
      [a, b, c ++ '.' :: d, e] := by
    rw [splitColon_append a _ hca, splitColon_append b _ hcb, hassoc,
      splitColon_append _ _ hcd2, splitColon_of_no_colon e hce]
  have hlen := splitColon_length (a ++ ':' :: (b ++ ':' :: (c ++ '.' :: (d ++ ':' :: e))))
  rw [hsplit] at hlen
  simp only [List.length_cons, List.length_nil] at hlen
  have hcount : nstrchr (a ++ ':' :: (b ++ ':' :: (c ++ '.' :: (d ++ ':' :: e)))) ':' = 3 := by
    omega
  refine ⟨hcount, ?_⟩
  have ht := tmAssemble_eq nowTm (a ++ ':' :: (b ++ ':' :: (c ++ '.' :: (d ++ ':' :: e))))
  rw [hsplit] at ht
  have hmin : atoi (c ++ '.' :: d) = atoi c :=
    atoi_append_stop c d '.' (by decide) (by decide) (by decide) (by decide)
  show (⟨mk (tmAssemble nowTm (a ++ ':' :: (b ++ ':' :: (c ++ '.' :: (d ++ ':' :: e))))).1,
         fracUsec (tmAssemble nowTm (a ++ ':' :: (b ++ ':' :: (c ++ '.' :: (d ++ ':' :: e))))).2⟩ :
      Timeval) = _
  rw [ht]
  simp [tmFields, hmin, fracUsec_no_dot e hde, joinColon]

/-- C10 witness: the concrete literal 10:20:30.40:50 is parsed with day 10,
hour 20, minute 30, second 50 and microseconds 0. -/
theorem C10_colon_count_witness :
    nstrchr (['1', '0'] ++ ':' :: (['2', '0'] ++ ':' ::
      (['3', '0'] ++ '.' :: (['4', '0'] ++ ':' :: ['5', '0'])))) ':' = 3 ∧
    str2timeval nowTm0 mkSec (['1', '0'] ++ ':' :: (['2', '0'] ++ ':' ::
      (['3', '0'] ++ '.' :: (['4', '0'] ++ ':' :: ['5', '0'])))) =
      ⟨mkSec { nowTm0 with tm_mday := atoi ['1', '0'], tm_hour := atoi ['2', '0'],
                           tm_min := atoi ['3', '0'], tm_sec := atoi ['5', '0'] }, 0⟩ :=
  C10_colon_count_includes_fraction nowTm0 mkSec ['1', '0'] ['2', '0'] ['3', '0'] ['4', '0']
    ['5', '0'] (by decide) (by decide) (by decide) (by decide) (by decide)

theorem statLoop_events (rs : List (Except Nat StatBuf)) :
    ∀ e ∈ (statLoop rs).2, e = Event.statCall ∨ e = Event.report PMsg.statMsg := by
  induction rs with
  | nil =>
    intro e he
    simp [statLoop] at he
  | cons r rs2 ih =>
    intro e he
    match r with
    | .ok sb =>
      simp [statLoop] at he
      simp [he]
    | .error er =>
      by_cases h4 : er = EINTR
      · simp [statLoop, h4] at he
        rcases he with he | he
        · simp [he]
        · exact ih e he
      · simp [statLoop, h4] at he
        rcases he with he | he <;> simp [he]

theorem chmodLoop_events (rs : List (Option Nat)) :
    ∀ e ∈ (chmodLoop rs).2,
      (∃ b, e = Event.chmodCall b) ∨ e = Event.report PMsg.chmodMsg := by
  induction rs with
  | nil =>
    intro e he
    simp [chmodLoop] at he
  | cons r rs2 ih =>
    intro e he
    match r with
    | none =>
      simp [chmodLoop] at he
      exact Or.inl ⟨true, he⟩
    | some er =>
      by_cases h4 : er = EINTR
      · simp [chmodLoop, h4] at he
        rcases he with he | he
        · exact Or.inl ⟨false, he⟩
        · exact ih e he
      · simp [chmodLoop, h4] at he
        rcases he with he | he | he
        · exact Or.inl ⟨false, he⟩
        · exact Or.inr he
        · exact ih e he

theorem no_settod_statLoop (rs : List (Except Nat StatBuf)) (tv : Timeval) (b : Bool) :
    Event.settod tv b ∉ (statLoop rs).2 := by
  intro hm
  rcases statLoop_events rs _ hm with h | h <;> simp at h

theorem no_chmod_statLoop (rs : List (Except Nat StatBuf)) (b : Bool) :
    Event.chmodCall b ∉ (statLoop rs).2 := by
  intro hm
  rcases statLoop_events rs _ hm with h | h <;> simp at h

theorem no_settod_chmodLoop (rs : List (Option Nat)) (tv : Timeval) (b : Bool) :
    Event.settod tv b ∉ (chmodLoop rs).2 := by
  intro hm
  rcases chmodLoop_events rs _ hm with ⟨b2, h⟩ | h <;> simp at h

theorem replay_cons (w : World) (e : Event) (rest : List Event) :
    replay w (e :: rest) = replay (stepW w e) rest := rfl

theorem stepW_clock_of_no_settod (w : World) (e : Event)
    (h : ∀ tv b, e ≠ Event.settod tv b) : (stepW w e).clock = w.clock := by
  cases e with
  | settod tv b => exact absurd rfl (h tv b)
  | chmodCall ok => cases ok <;> rfl
  | statCall => rfl
  | sigBlock => rfl
  | sigUnblock => rfl
  | report m => rfl
  | dryReport tv => rfl

theorem stepW_fctime_of_no_chmod (w : World) (e : Event)
    (h : e ≠ Event.chmodCall true) : (stepW w e).fctime = w.fctime := by
  cases e with
  | settod tv b => cases b <;> rfl
  | chmodCall ok =>
    cases ok with
    | true => exact absurd rfl h
    | false => rfl
  | statCall => rfl
  | sigBlock => rfl
  | sigUnblock => rfl
  | report m => rfl
  | dryReport tv => rfl

theorem replay_no_settod (evs : List Event) :
    ∀ w : World, (∀ tv b, Event.settod tv b ∉ evs) →
      (replay w evs).clock = w.clock ∧
      (Event.chmodCall true ∈ evs → (replay w evs).fctime = w.clock) ∧
      (Event.chmodCall true ∉ evs → (replay w evs).fctime = w.fctime) := by
  induction evs with
  | nil =>
    intro w h
    refine ⟨rfl, ?_, fun _ => rfl⟩
    intro hm
    simp at hm
  | cons e rest ih =>
    intro w h
    have hrest : ∀ tv b, Event.settod tv b ∉ rest := fun tv b hm =>
      h tv b (List.mem_cons_of_mem _ hm)
    have he : ∀ tv b, e ≠ Event.settod tv b := fun tv b heq =>
      h tv b (heq ▸ List.mem_cons_self _ _)
    have hclock : (stepW w e).clock = w.clock := stepW_clock_of_no_settod w e he
    obtain ⟨ihc, ihf1, ihf2⟩ := ih (stepW w e) hrest
    rw [replay_cons]
    refine ⟨by rw [ihc, hclock], ?_, ?_⟩
    · intro hm
      by_cases hcm : Event.chmodCall true ∈ rest
      · rw [ihf1 hcm, hclock]
      · have hee : e = Event.chmodCall true := by
          rcases List.mem_cons.mp hm with h1 | h1
          · exact h1.symm
          · exact absurd h1 hcm
        rw [ihf2 hcm, hee]
        simp [stepW]
    · intro hm
      have he2 : e ≠ Event.chmodCall true := fun heq => hm (heq ▸ List.mem_cons_self _ _)
      have hm2 : Event.chmodCall true ∉ rest := fun hmm => hm (List.mem_cons_of_mem _ hmm)
      rw [ihf2 hm2, stepW_fctime_of_no_chmod w e he2]

theorem stepW_id (w : World) (e : Event) (h1 : ∀ tv, e ≠ Event.settod tv true)
    (h2 : e ≠ Event.chmodCall true) : stepW w e = w := by
  cases e with
  | settod tv b =>
    cases b with
    | true => exact absurd rfl (h1 tv)
    | false => rfl
  | chmodCall ok =>
    cases ok with
    | true => exact absurd rfl h2
    | false => rfl
  | statCall => rfl
  | sigBlock => rfl
  | sigUnblock => rfl
  | report m => rfl
  | dryReport tv => rfl

theorem replay_id (evs : List Event) :
    ∀ w : World, (∀ tv, Event.settod tv true ∉ evs) → (∀ b, Event.chmodCall b ∉ evs) →
      replay w evs = w := by
  induction evs with
  | nil => intro w _ _; rfl
  | cons e rest ih =>
    intro w h1 h2
    have he1 : ∀ tv, e ≠ Event.settod tv true := fun tv heq =>
      h1 tv (heq ▸ List.mem_cons_self _ _)
    have he2 : e ≠ Event.chmodCall true := fun heq =>
      h2 true (heq ▸ List.mem_cons_self _ _)
    rw [replay_cons, stepW_id w e he1 he2]
    exact ih w (fun tv hm => h1 tv (List.mem_cons_of_mem _ hm))
      (fun b hm => h2 b (List.mem_cons_of_mem _ hm))

/-- C5: when change_ctime is passed the unset instant (0,0), the applied
instant is derived from the target file's own atime when the atime selector
is active, else its own mtime when the mtime selector is active, and stays
zero when neither selector is set; in that last case no settimeofday call
occurs at all (the clock is never altered) and the forced chmod update
records the current time (the saved gettimeofday value, equal to the
running clock) as the file's ctime. -/
theorem C5_unset_instant (cfg : Config) (inode : StatBuf) (env : Env) (evs0 : List Event)
    (now f0 a0 m0 : Timeval) (nf : Nat) (cevs : List Event) :
    (deriveCtime cfg inode ⟨0, 0⟩ =
      if cfg.use_atime then ⟨inode.st_atime, inode.st_atim_nsec / 1000⟩
      else if cfg.use_mtime then ⟨inode.st_mtime, inode.st_mtim_nsec / 1000⟩ else ⟨0, 0⟩) ∧
    (cfg.use_atime = false → cfg.use_mtime = false →
      statLoop env.statRes = (StatOut.ok inode, evs0) → env.gtodRes = Except.ok now →
      env.sigfillOk = true → env.sigmaskSetOk = true → env.sigmaskRestoreOk = true →
      chmodLoop env.chmodRes = (some nf, cevs) →
      change_ctime cfg env ⟨0, 0⟩ =
        (some (if (-(nf : Int)) != 0 then -1 else 0),
         evs0 ++ [Event.sigBlock] ++ cevs ++ [Event.sigUnblock]) ∧
      (∀ tv b, Event.settod tv b ∉ evs0 ++ [Event.sigBlock] ++ cevs ++ [Event.sigUnblock]) ∧
      (replay ⟨now, f0, a0, m0⟩
        (evs0 ++ [Event.sigBlock] ++ cevs ++ [Event.sigUnblock])).clock = now ∧
      (Event.chmodCall true ∈ cevs →
        (replay ⟨now, f0, a0, m0⟩
          (evs0 ++ [Event.sigBlock] ++ cevs ++ [Event.sigUnblock])).fctime = now)) := by
  constructor
  · simp [deriveCtime, timerisset]
  · intro hA hM hstat hgtod hsf hsm hsr hch
    have hder : deriveCtime cfg inode ⟨0, 0⟩ = ⟨0, 0⟩ := by
      simp [deriveCtime, timerisset, hA, hM]
    have hs0 := fun tv b => no_settod_statLoop env.statRes tv b
    rw [hstat] at hs0
    have hc0 := fun tv b => no_settod_chmodLoop env.chmodRes tv b
    rw [hch] at hc0
    have hrun : change_ctime cfg env ⟨0, 0⟩ =
        (some (if (-(nf : Int)) != 0 then -1 else 0),
         evs0 ++ [Event.sigBlock] ++ cevs ++ [Event.sigUnblock]) := by
      simp [change_ctime, hstat, hgtod, hder, timerisset, hsf, hsm, hch, endUnblock, hsr]
    have hset : ∀ tv b,
        Event.settod tv b ∉ evs0 ++ [Event.sigBlock] ++ cevs ++ [Event.sigUnblock] := by
      intro tv b hm
      simp only [List.mem_append, List.mem_singleton] at hm
      rcases hm with ((hm | hm) | hm) | hm
      · exact hs0 tv b hm
      · simp at hm
      · exact hc0 tv b hm
      · simp at hm
    obtain ⟨hclock, hf1, _⟩ :=
      replay_no_settod (evs0 ++ [Event.sigBlock] ++ cevs ++ [Event.sigUnblock])
        ⟨now, f0, a0, m0⟩ hset
    refine ⟨hrun, hset, hclock, ?_⟩
    intro hm
    exact hf1 (by simp [List.mem_append, hm])

/-- C5 witness: the successful oracle with neither selector and the unset
instant performs no settimeofday call and leaves the clock at its original
value while the file ctime becomes that value. -/
theorem C5_unset_instant_witness :
    change_ctime cfg0 envOK ⟨0, 0⟩ =
      (some 0, [Event.statCall, Event.sigBlock, Event.chmodCall true, Event.sigUnblock]) ∧
    (∀ tv b, Event.settod tv b ∉
      [Event.statCall, Event.sigBlock, Event.chmodCall true, Event.sigUnblock]) ∧
    (replay ⟨⟨50, 0⟩, ⟨33, 0⟩, ⟨11, 0⟩, ⟨22, 0⟩⟩
      [Event.statCall, Event.sigBlock, Event.chmodCall true, Event.sigUnblock]).clock = ⟨50, 0⟩ ∧
    (replay ⟨⟨50, 0⟩, ⟨33, 0⟩, ⟨11, 0⟩, ⟨22, 0⟩⟩
      [Event.statCall, Event.sigBlock, Event.chmodCall true, Event.sigUnblock]).fctime =
      ⟨50, 0⟩ := by
  have h := (C5_unset_instant cfg0 inode0 envOK [Event.statCall] ⟨50, 0⟩ ⟨33, 0⟩ ⟨11, 0⟩
    ⟨22, 0⟩ 0 [Event.chmodCall true]).2 rfl rfl (by decide) rfl rfl rfl rfl (by decide)
  obtain ⟨h1, -, h3, h4⟩ := h
  refine ⟨?_, ?_, ?_, ?_⟩
  · simpa using h1
  · intro tv b
    simp
  · simpa using h3
  · have h6 := h4 (by simp)
    simpa using h6

theorem chmodLoop_replicate_fail (k : Nat) :
    chmodLoop (List.replicate k (some 1)) =
      (none, (List.replicate k [Event.chmodCall false, Event.report PMsg.chmodMsg]).flatten) := by
  induction k with
  | zero => simp [chmodLoop]
  | succ n ih => simp [List.replicate_succ, chmodLoop, EINTR, ih]

theorem mem_join_replicate {α : Type} (n : Nat) (l : List α) (x : α)
    (h : x ∈ (List.replicate n l).flatten) : x ∈ l := by
  rcases List.mem_flatten.mp h with ⟨s, hs, hx⟩
  rcases List.mem_replicate.mp hs with ⟨-, rfl⟩
  exact hx

/-- C1 (code bug): on a target whose settimeofday to the instant succeeded
but whose chmod fails persistently with a non-EINTR error, the chmod loop of
change_ctime (whose body has no break on non-EINTR failures) never exits:
for every finite count of consecutive failing chmod outcomes the invocation
still has not returned (result none); the chmod failures are reported over
and over, the clock was set to the target instant (100,0), and no
settimeofday back to the saved time (50,0) is ever attempted, so the
claimed clock restoration is unreachable. -/
theorem C1_persistent_chmod_failure_never_restores (k : Nat) :
    (change_ctime cfg0 (envPersist (k + 1)) ⟨100, 0⟩).1 = none ∧
    Event.report PMsg.chmodMsg ∈ (change_ctime cfg0 (envPersist (k + 1)) ⟨100, 0⟩).2 ∧
    Event.settod ⟨100, 0⟩ true ∈ (change_ctime cfg0 (envPersist (k + 1)) ⟨100, 0⟩).2 ∧
    (∀ b, Event.settod ⟨50, 0⟩ b ∉ (change_ctime cfg0 (envPersist (k + 1)) ⟨100, 0⟩).2) := by
  have htv : timerisset (⟨100, 0⟩ : Timeval) = true := by decide
  have hrun : change_ctime cfg0 (envPersist (k + 1)) ⟨100, 0⟩ =
      (none, [Event.statCall] ++ [Event.sigBlock, Event.settod ⟨100, 0⟩ true] ++
        (List.replicate (k + 1) [Event.chmodCall false, Event.report PMsg.chmodMsg]).flatten) := by
    simp [change_ctime, envPersist, envOK, statLoop, deriveCtime, htv,
      chmodLoop_replicate_fail]
  rw [hrun]
  refine ⟨rfl, ?_, ?_, ?_⟩
  · have hJ : Event.report PMsg.chmodMsg ∈
        (List.replicate (k + 1) [Event.chmodCall false, Event.report PMsg.chmodMsg]).flatten := by
      refine List.mem_flatten.mpr ⟨[Event.chmodCall false, Event.report PMsg.chmodMsg], ?_, by simp⟩
      exact List.mem_replicate.mpr ⟨by omega, rfl⟩
    simp [hJ]
  · simp
  · intro b hm
    simp only [List.mem_append, List.mem_cons, List.mem_singleton] at hm
    rcases hm with (hm | hm) | hm
    · simp at hm
    · rcases hm with hm | hm | hm
      · simp at hm
      · simp at hm
      · simp at hm
    · have hl := mem_join_replicate _ _ _ hm
      simp at hl

theorem stepW_clock_of_no_true (w : World) (e : Event)
    (h : ∀ tv, e ≠ Event.settod tv true) : (stepW w e).clock = w.clock := by
  cases e with
  | settod tv b =>
    cases b with
    | true => exact absurd rfl (h tv)
    | false => rfl
  | chmodCall ok => cases ok <;> rfl
  | statCall => rfl
  | sigBlock => rfl
  | sigUnblock => rfl
  | report m => rfl
  | dryReport tv => rfl

theorem replay_clock_no_set (evs : List Event) :
    ∀ w : World, (∀ tv, Event.settod tv true ∉ evs) → (replay w evs).clock = w.clock := by
  induction evs with
  | nil => intro w _; rfl
  | cons e rest ih =>
    intro w h
    have he : ∀ tv, e ≠ Event.settod tv true := fun tv heq =>
      h tv (heq ▸ List.mem_cons_self _ _)
    rw [replay_cons, ih (stepW w e) (fun tv hm => h tv (List.mem_cons_of_mem _ hm)),
      stepW_clock_of_no_true w e he]

/-- C8 (modelled from the spec; src/touch2.c has no dry-run mode anywhere,
so the dry-run branch is modelled from section 4.2 step 3 of the spec): in
dry-run mode, for every target whose metadata query succeeds, the mutator
reports the instant that would be applied (derived exactly as change_ctime
derives it), makes no settimeofday and no chmod call, returns success, and
replaying its trace leaves the whole world (host clock and the file's
ctime, atime and mtime) unchanged. -/
theorem C8_dry_run_no_mutation (cfg : Config) (env : Env) (tv : Timeval) (inode : StatBuf)
    (evs0 : List Event) (w : World)
    (hstat : statLoop env.statRes = (StatOut.ok inode, evs0)) :
    change_ctime_dry cfg env tv =
      (some 0, evs0 ++ [Event.dryReport (deriveCtime cfg inode tv)]) ∧
    Event.dryReport (deriveCtime cfg inode tv) ∈ (change_ctime_dry cfg env tv).2 ∧
    (∀ tv2 b, Event.settod tv2 b ∉ (change_ctime_dry cfg env tv).2) ∧
    (∀ b, Event.chmodCall b ∉ (change_ctime_dry cfg env tv).2) ∧
    replay w (change_ctime_dry cfg env tv).2 = w := by
  have hrun : change_ctime_dry cfg env tv =
      (some 0, evs0 ++ [Event.dryReport (deriveCtime cfg inode tv)]) := by
    simp [change_ctime_dry, hstat]
  have hs0 := fun tv2 b => no_settod_statLoop env.statRes tv2 b
  have hc0 := fun b => no_chmod_statLoop env.statRes b
  rw [hstat] at hs0 hc0
  rw [hrun]
  refine ⟨rfl, by simp, ?_, ?_, ?_⟩
  · intro tv2 b hm
    simp only [List.mem_append, List.mem_singleton] at hm
    rcases hm with hm | hm
    · exact hs0 tv2 b hm
    · simp at hm
  · intro b hm
    simp only [List.mem_append, List.mem_singleton] at hm
    rcases hm with hm | hm
    · exact hc0 b hm
    · simp at hm
  · apply replay_id
    · intro tv2 hm
      simp only [List.mem_append, List.mem_singleton] at hm
      rcases hm with hm | hm
      · exact hs0 tv2 true hm
      · simp at hm
    · intro b hm
      simp only [List.mem_append, List.mem_singleton] at hm
      rcases hm with hm | hm
      · exact hc0 b hm
      · simp at hm

/-- C8 witness: the dry-run mutator on the successful oracle reports the
derived instant and changes nothing. -/
theorem C8_dry_run_witness :
    change_ctime_dry cfg0 envOK ⟨0, 0⟩ =
      (some 0, [Event.statCall, Event.dryReport ⟨0, 0⟩]) ∧
    replay ⟨⟨50, 0⟩, ⟨33, 0⟩, ⟨11, 0⟩, ⟨22, 0⟩⟩ (change_ctime_dry cfg0 envOK ⟨0, 0⟩).2 =
      ⟨⟨50, 0⟩, ⟨33, 0⟩, ⟨11, 0⟩, ⟨22, 0⟩⟩ := by
  have h := C8_dry_run_no_mutation cfg0 envOK ⟨0, 0⟩ inode0 [Event.statCall]
    ⟨⟨50, 0⟩, ⟨33, 0⟩, ⟨11, 0⟩, ⟨22, 0⟩⟩ (by decide)
  obtain ⟨h1, -, -, -, h5⟩ := h
  constructor
  · simpa using h1
  · exact h5

/-- C3 amended: a failure to set the clock to the target instant aborts
that file's mutation with the clock untouched (the only settimeofday event
is the failed one, and replaying the trace leaves the clock unchanged) and
the signal mask restored, returning -1, and processing moves on; a failure
to restore the clock is likewise only a per-file failure, not fatal to the
run: change_ctime returns -1 after attempting the restore, and the file
loop continues with the remaining operands for any file whose mutation
returned a failure. -/
theorem C3_clock_failures (cfg : Config) (env : Env) (tv : Timeval) (inode : StatBuf)
    (evs0 : List Event) (now : Timeval) (nf : Nat) (cevs : List Event)
    (fenv : List Char → Env) (f : List Char) (fs : List (List Char))
    (l2 : List (List Char × Int × List Event)) (r : Int) (evs : List Event) :
    ((env.gtodRes = Except.ok now → env.sigfillOk = true → env.sigmaskSetOk = true →
      env.sigmaskRestoreOk = true → statLoop env.statRes = (StatOut.ok inode, evs0) →
      timerisset (deriveCtime cfg inode tv) = true →
      ((env.setClockOk = false →
        change_ctime cfg env tv =
          (some (-1),
           evs0 ++ [Event.sigBlock, Event.settod (deriveCtime cfg inode tv) false,
             Event.report PMsg.setClockMsg, Event.sigUnblock]) ∧
        (∀ tv2, Event.settod tv2 true ∉ (change_ctime cfg env tv).2) ∧
        Event.sigUnblock ∈ (change_ctime cfg env tv).2 ∧
        (∀ w : World, (replay w (change_ctime cfg env tv).2).clock = w.clock)) ∧
       (env.setClockOk = true → env.restoreClockOk = false →
        chmodLoop env.chmodRes = (some nf, cevs) →
        (change_ctime cfg env tv).1 = some (-1) ∧
        Event.settod now false ∈ (change_ctime cfg env tv).2))) ∧
     (change_ctime cfg (fenv f) tv = (some r, evs) → r < 0 →
      processFiles cfg tv fenv fs = some l2 →
      processFiles cfg tv fenv (f :: fs) = some ((f, r, evs) :: l2))) := by
  constructor
  · intro hgtod hsf hsm hsr hstat htr
    have hs0 := fun tv2 b => no_settod_statLoop env.statRes tv2 b
    rw [hstat] at hs0
    constructor
    · intro hsc
      have hrun : change_ctime cfg env tv =
          (some (-1),
           evs0 ++ [Event.sigBlock, Event.settod (deriveCtime cfg inode tv) false,
             Event.report PMsg.setClockMsg, Event.sigUnblock]) := by
        simp [change_ctime, hstat, hgtod, htr, hsf, hsm, hsc, endUnblock, hsr]
      rw [hrun]
      have hset : ∀ tv2, Event.settod tv2 true ∉
          evs0 ++ [Event.sigBlock, Event.settod (deriveCtime cfg inode tv) false,
            Event.report PMsg.setClockMsg, Event.sigUnblock] := by
        intro tv2 hm
        simp only [List.mem_append, List.mem_cons, List.mem_singleton] at hm
        rcases hm with hm | hm | hm | hm | hm
        · exact hs0 tv2 true hm
        · simp at hm
        · simp at hm
        · simp at hm
        · simp at hm
      refine ⟨rfl, hset, by simp, ?_⟩
      intro w
      exact replay_clock_no_set _ w hset
    · intro hsc hrc hch
      have hrun : change_ctime cfg env tv =
          (some (-1),
           evs0 ++ [Event.sigBlock, Event.settod (deriveCtime cfg inode tv) true] ++ cevs ++
             [Event.settod now false, Event.report PMsg.restoreMsg, Event.sigUnblock]) := by
        have hne : ((-(nf : Int) - 1) != 0) = true := by
          simp only [bne_iff_ne, ne_eq]
          omega
        simp [change_ctime, hstat, hgtod, htr, hsf, hsm, hsc, hrc, hch, endUnblock, hsr, hne]
      rw [hrun]
      constructor
      · rfl
      · simp
  · intro hcc hneg hrest
    simp [processFiles, hcc, hrest]

/-- C3 witness: a concrete clock-set failure aborts the file with the clock
untouched and the mask restored, and a concrete restore failure is a
per-file -1 with processing continuing. -/
theorem C3_clock_failures_witness :
    change_ctime cfg0 { envOK with setClockOk := false } ⟨100, 0⟩ =
      (some (-1),
       [Event.statCall, Event.sigBlock, Event.settod ⟨100, 0⟩ false,
        Event.report PMsg.setClockMsg, Event.sigUnblock]) ∧
    (change_ctime cfg0 envRestoreFail ⟨100, 0⟩).1 = some (-1) ∧
    Event.settod ⟨50, 0⟩ false ∈ (change_ctime cfg0 envRestoreFail ⟨100, 0⟩).2 ∧
    processFiles cfg0 ⟨100, 0⟩ fenvRestoreFail [['f'], ['g']] =
      some
        [(['f'], -1,
          [Event.statCall, Event.sigBlock, Event.settod ⟨100, 0⟩ true, Event.chmodCall true,
           Event.settod ⟨50, 0⟩ false, Event.report PMsg.restoreMsg, Event.sigUnblock]),
         (['g'], 0,
          [Event.statCall, Event.sigBlock, Event.settod ⟨100, 0⟩ true, Event.chmodCall true,
           Event.settod ⟨50, 0⟩ true, Event.sigUnblock])] := by
  have hder : deriveCtime cfg0 inode0 ⟨100, 0⟩ = ⟨100, 0⟩ := by decide
  have h1 := ((C3_clock_failures cfg0 { envOK with setClockOk := false } ⟨100, 0⟩ inode0
    [Event.statCall] ⟨50, 0⟩ 0 [Event.chmodCall true] fenvRestoreFail ['f'] [['g']] [] (-1)
    []).1 rfl rfl rfl rfl (by decide) (by decide)).1 rfl
  have h2 := ((C3_clock_failures cfg0 envRestoreFail ⟨100, 0⟩ inode0
    [Event.statCall] ⟨50, 0⟩ 0 [Event.chmodCall true] fenvRestoreFail ['f'] [['g']] [] (-1)
    []).1 rfl rfl rfl rfl (by decide) (by decide)).2 rfl rfl (by decide)
  have h3 := (C3_clock_failures cfg0 envRestoreFail ⟨100, 0⟩ inode0
    [Event.statCall] ⟨50, 0⟩ 0 [Event.chmodCall true] fenvRestoreFail ['f']
    [['g']]
    [(['g'], 0,
      [Event.statCall, Event.sigBlock, Event.settod ⟨100, 0⟩ true, Event.chmodCall true,
       Event.settod ⟨50, 0⟩ true, Event.sigUnblock])]
    (-1)
    [Event.statCall, Event.sigBlock, Event.settod ⟨100, 0⟩ true, Event.chmodCall true,
     Event.settod ⟨50, 0⟩ false, Event.report PMsg.restoreMsg, Event.sigUnblock]).2
  refine ⟨?_, h2.1, h2.2, ?_⟩
  · have h4 := h1.1
    rw [hder] at h4
    simpa using h4
  · exact h3 (by decide) (by norm_num) (by decide)

/-- C3 counterexample: with a target literal of 1970-01-02 03:04:05 (toy
UTC mktime value 97445), restoring the clock fails for file f; the claim
says the run is fatal there, but main reports the per-file error and
processes file g to completion, exiting successfully. -/
theorem C3_restore_failure_counterexample :
    mainRun nowTm0 mkEpoch [] fenvRestoreFail
      [['-', 't'], ['1', '9', '7', '0', ':', '1', ':', '2', ':', '3', ':', '4', ':', '5'],
       ['f'], ['g']] =
      MainOut.run
        [(['f'], -1,
          [Event.statCall, Event.sigBlock, Event.settod ⟨97445, 0⟩ true,
           Event.chmodCall true, Event.settod ⟨50, 0⟩ false, Event.report PMsg.restoreMsg,
           Event.sigUnblock]),
         (['g'], 0,
          [Event.statCall, Event.sigBlock, Event.settod ⟨97445, 0⟩ true,
           Event.chmodCall true, Event.settod ⟨50, 0⟩ true, Event.sigUnblock])] ∧
    MEvent.errLine ['f'] ∈ mainTrace
        [(['f'], -1,
          [Event.statCall, Event.sigBlock, Event.settod ⟨97445, 0⟩ true,
           Event.chmodCall true, Event.settod ⟨50, 0⟩ false, Event.report PMsg.restoreMsg,
           Event.sigUnblock]),
         (['g'], 0,
          [Event.statCall, Event.sigBlock, Event.settod ⟨97445, 0⟩ true,
           Event.chmodCall true, Event.settod ⟨50, 0⟩ true, Event.sigUnblock])] := by
  decide

/-- C6 amended: the pre-mutation stat of a target is retried transparently
on EINTR (the retried call changes nothing but an extra recorded stat
call); any other stat failure aborts only this file's mutation — change
ctime returns -1 before any settimeofday or chmod — and is reported as a
per-file failure while the file loop continues with the remaining operands
(it does not abort the entire run). -/
theorem C6_stat_failure (cfg : Config) (tv : Timeval) (env : Env)
    (rs : List (Except Nat StatBuf)) (e : Nat) (fenv : List Char → Env) (f : List Char)
    (fs : List (List Char)) (l2 : List (List Char × Int × List Event)) :
    (statLoop (Except.error EINTR :: rs) =
      ((statLoop rs).1, Event.statCall :: (statLoop rs).2)) ∧
    (e ≠ EINTR → env.statRes = Except.error e :: rs →
      change_ctime cfg env tv = (some (-1), [Event.statCall, Event.report PMsg.statMsg]) ∧
      (∀ tv2 b, Event.settod tv2 b ∉ (change_ctime cfg env tv).2) ∧
      (∀ b, Event.chmodCall b ∉ (change_ctime cfg env tv).2)) ∧
    ((fenv f).statRes = Except.error e :: rs → e ≠ EINTR →
      processFiles cfg tv fenv fs = some l2 →
      processFiles cfg tv fenv (f :: fs) =
        some ((f, -1, [Event.statCall, Event.report PMsg.statMsg]) :: l2) ∧
      MEvent.errLine f ∈
        mainTrace ((f, -1, [Event.statCall, Event.report PMsg.statMsg]) :: l2)) := by
  refine ⟨by simp [statLoop], ?_, ?_⟩
  · intro he hst
    have hrun : change_ctime cfg env tv =
        (some (-1), [Event.statCall, Event.report PMsg.statMsg]) := by
      simp [change_ctime, statLoop, hst, he]
    rw [hrun]
    refine ⟨rfl, ?_, ?_⟩
    · intro tv2 b hm
      simp at hm
    · intro b hm
      simp at hm
  · intro hst he hrest
    have hrun : change_ctime cfg (fenv f) tv =
        (some (-1), [Event.statCall, Event.report PMsg.statMsg]) := by
      simp [change_ctime, statLoop, hst, he]
    constructor
    · simp [processFiles, hrun, hrest]
    · simp [mainTrace]

/-- C6 witness: a concrete EACCES stat failure on one file with a second
file processed afterwards. -/
theorem C6_stat_failure_witness :
    change_ctime cfg0 envStatFail ⟨0, 0⟩ =
      (some (-1), [Event.statCall, Event.report PMsg.statMsg]) ∧
    processFiles cfg0 ⟨0, 0⟩ fenvStatFail [['f'], ['g']] =
      some
        ((['f'], -1, [Event.statCall, Event.report PMsg.statMsg]) ::
          [(['g'], 0,
            [Event.statCall, Event.sigBlock, Event.chmodCall true, Event.sigUnblock])]) ∧
    MEvent.errLine ['f'] ∈
      mainTrace ((['f'], -1, [Event.statCall, Event.report PMsg.statMsg]) ::
        [(['g'], 0,
          [Event.statCall, Event.sigBlock, Event.chmodCall true, Event.sigUnblock])]) := by
  have h := C6_stat_failure cfg0 ⟨0, 0⟩ envStatFail [] 13 fenvStatFail ['f'] [['g']]
    [(['g'], 0, [Event.statCall, Event.sigBlock, Event.chmodCall true, Event.sigUnblock])]
  refine ⟨(h.2.1 (by decide) rfl).1, ?_, ?_⟩
  · exact (h.2.2 rfl (by decide) (by decide)).1
  · exact (h.2.2 rfl (by decide) (by decide)).2

/-- C6 counterexample: file f cannot be statted (EACCES); the claim says the
whole run aborts, but main reports the per-file error, still processes file
g to completion (including its chmod), and the run finishes with the
success outcome. -/
theorem C6_stat_failure_counterexample :
    mainRun nowTm0 mkEpoch [] fenvStatFail [['f'], ['g']] =
      MainOut.run
        [(['f'], -1, [Event.statCall, Event.report PMsg.statMsg]),
         (['g'], 0,
          [Event.statCall, Event.sigBlock, Event.chmodCall true, Event.sigUnblock])] ∧
    MEvent.ev ['g'] (Event.chmodCall true) ∈ mainTrace
        [(['f'], -1, [Event.statCall, Event.report PMsg.statMsg]),
         (['g'], 0,
          [Event.statCall, Event.sigBlock, Event.chmodCall true, Event.sigUnblock])] := by
  decide

/-- C9: when the file loop completes, the recorded per-file results are in
exactly the command-line order; each entry is the full change_ctime outcome
for its operand, and the flat trace of the run is the concatenation of the
per-file segments in that order, so each file's critical section (its whole
event list, clock restore included) sits entirely before the next file's
first event; moreover every file whose mutation returned a negative status
has its error line in the trace while the remaining files still appear
(batch semantics, not fail-fast). -/
theorem C9_sequential_batch (cfg : Config) (tv : Timeval) (fenv : List Char → Env) :
    ∀ files l, processFiles cfg tv fenv files = some l →
      l.map Prod.fst = files ∧
      (∀ p ∈ l, change_ctime cfg (fenv p.1) tv = (some p.2.1, p.2.2)) ∧
      mainTrace l = files.flatMap (fun f =>
        ((change_ctime cfg (fenv f) tv).2).map (MEvent.ev f) ++
          (if ((change_ctime cfg (fenv f) tv).1.getD 0) < 0 then [MEvent.errLine f]
           else [])) ∧
      (∀ p ∈ l, p.2.1 < 0 → MEvent.errLine p.1 ∈ mainTrace l) := by
  intro files
  induction files with
  | nil =>
    intro l hl
    simp [processFiles] at hl
    subst hl
    simp [mainTrace]
  | cons f fs ih =>
    intro l hl
    cases hcc : change_ctime cfg (fenv f) tv with
    | mk o evs =>
      cases o with
      | none => simp [processFiles, hcc] at hl
      | some r =>
        cases hrest : processFiles cfg tv fenv fs with
        | none => simp [processFiles, hcc, hrest] at hl
        | some l2 =>
          have hl2 : l = (f, r, evs) :: l2 := by
            rw [processFiles, hcc, hrest] at hl
            exact (Option.some.injEq _ _ ▸ hl).symm
          subst hl2
          obtain ⟨m1, m2, m3, m4⟩ := ih l2 hrest
          refine ⟨by simp [m1], ?_, ?_, ?_⟩
          · intro p hp
            rcases List.mem_cons.mp hp with h | h
            · rw [h]
              exact hcc
            · exact m2 p h
          · simp only [mainTrace, m3, List.flatMap_cons, hcc]
            simp
          · intro p hp hneg
            rcases List.mem_cons.mp hp with h | h
            · subst h
              simp only [mainTrace]
              simp at hneg
              simp [hneg]
            · have hm := m4 p h hneg
              simp only [mainTrace, List.mem_append]
              right
              exact hm

/-- C9 witness: two files through the successful oracle, in order, with the
per-file outcomes recorded. -/
theorem C9_sequential_batch_witness :
    ([(['f'], 0, [Event.statCall, Event.sigBlock, Event.chmodCall true, Event.sigUnblock]),
      (['g'], 0,
       [Event.statCall, Event.sigBlock, Event.chmodCall true, Event.sigUnblock])].map
        Prod.fst = [['f'], ['g']]) ∧
    (∀ p ∈ [(['f'], 0, [Event.statCall, Event.sigBlock, Event.chmodCall true,
        Event.sigUnblock]),
      (['g'], 0, [Event.statCall, Event.sigBlock, Event.chmodCall true, Event.sigUnblock])],
      change_ctime cfg0 (fenvOK p.1) ⟨0, 0⟩ = (some p.2.1, p.2.2)) := by
  have h := C9_sequential_batch cfg0 ⟨0, 0⟩ fenvOK [['f'], ['g']]
    [(['f'], 0, [Event.statCall, Event.sigBlock, Event.chmodCall true, Event.sigUnblock]),
     (['g'], 0, [Event.statCall, Event.sigBlock, Event.chmodCall true, Event.sigUnblock])]
    (by decide)
  exact ⟨h.1, h.2.1⟩

theorem parseArgs_optA (nowTm : Tm) (mk : Tm → Int) (st : PState) (rest : List (List Char)) :
    parseArgs nowTm mk st (['-', 'a'] :: rest) =
      if st.use_mtime || timerisset st.new_ctime then .error .exclusive1
      else parseArgs nowTm mk { st with use_atime := true } rest := rfl

theorem parseArgs_optM (nowTm : Tm) (mk : Tm → Int) (st : PState) (rest : List (List Char)) :
    parseArgs nowTm mk st (['-', 'm'] :: rest) =
      if st.use_atime || timerisset st.new_ctime then .error .exclusive1
      else parseArgs nowTm mk { st with use_mtime := true } rest := rfl

theorem parseArgs_optR (nowTm : Tm) (mk : Tm → Int) (st : PState) (rf : List Char)
    (rest : List (List Char)) :
    parseArgs nowTm mk st (['-', 'r'] :: rf :: rest) =
      if timerisset st.new_ctime then .error .exclusive2
      else parseArgs nowTm mk { st with rfile := some rf } rest := rfl

theorem parseArgs_optT (nowTm : Tm) (mk : Tm → Int) (st : PState) (lit : List Char)
    (rest : List (List Char)) :
    parseArgs nowTm mk st (['-', 't'] :: lit :: rest) =
      if st.use_atime || st.use_mtime then .error .exclusive1
      else if (st.rfile).isSome then .error .exclusive2
      else parseArgs nowTm mk { st with new_ctime := str2timeval nowTm mk lit } rest := rfl

theorem optsArgs_cons (o : Opt) (os : List Opt) :
    optsArgs (o :: os) = optArgs o ++ optsArgs os := rfl

theorem hasT_cons_a (os : List Opt) : hasT (Opt.a :: os) = hasT os := by simp [hasT]

theorem hasT_cons_m (os : List Opt) : hasT (Opt.m :: os) = hasT os := by simp [hasT]

theorem hasT_cons_r (p : List Char) (os : List Opt) : hasT (Opt.r p :: os) = hasT os := by
  simp [hasT]

theorem hasT_cons_t (l : List Char) (os : List Opt) : hasT (Opt.t l :: os) = true := by
  simp [hasT]

theorem hasSel_cons_a (os : List Opt) : hasSel (Opt.a :: os) = true := by simp [hasSel]

theorem hasSel_cons_m (os : List Opt) : hasSel (Opt.m :: os) = true := by simp [hasSel]

theorem hasSel_cons_r (p : List Char) (os : List Opt) : hasSel (Opt.r p :: os) = hasSel os := by
  simp [hasSel]

theorem hasSel_cons_t (l : List Char) (os : List Opt) : hasSel (Opt.t l :: os) = hasSel os := by
  simp [hasSel]

theorem hasR_cons_a (os : List Opt) : hasR (Opt.a :: os) = hasR os := by simp [hasR]

theorem hasR_cons_m (os : List Opt) : hasR (Opt.m :: os) = hasR os := by simp [hasR]

theorem hasR_cons_r (p : List Char) (os : List Opt) : hasR (Opt.r p :: os) = true := by
  simp [hasR]

theorem hasR_cons_t (l : List Char) (os : List Opt) : hasR (Opt.t l :: os) = hasR os := by
  simp [hasR]

theorem parse_conflict_sel (nowTm : Tm) (mk : Tm → Int) :
    ∀ os : List Opt, ∀ st : PState, ∀ files : List (List Char),
      (∀ l, Opt.t l ∈ os → timerisset (str2timeval nowTm mk l) = true) →
      st.rfile = none → hasR os = false →
      ((timerisset st.new_ctime = true ∧ hasSel os = true) ∨
       ((st.use_atime = true ∨ st.use_mtime = true) ∧ hasT os = true) ∨
       (hasSel os = true ∧ hasT os = true)) →
      parseArgs nowTm mk st (optsArgs os ++ files) = .error .exclusive1 := by
  intro os
  induction os with
  | nil =>
    intro st files _ _ _ hconf
    simp [hasSel, hasT] at hconf
  | cons o os2 ih =>
    intro st files hT hrf hR hconf
    match o with
    | .a =>
      show parseArgs nowTm mk st (['-', 'a'] :: (optsArgs os2 ++ files)) = _
      rw [parseArgs_optA]
      by_cases hcond : (st.use_mtime || timerisset st.new_ctime) = true
      · rw [if_pos hcond]
      · rw [if_neg hcond]
        simp only [Bool.or_eq_true, not_or, Bool.not_eq_true] at hcond
        obtain ⟨hM, hTm⟩ := hcond
        have hT2 : hasT os2 = true := by
          rcases hconf with ⟨h1, -⟩ | ⟨-, h2⟩ | ⟨-, h3⟩
          · rw [hTm] at h1
            exact Bool.noConfusion h1
          · rwa [hasT_cons_a] at h2
          · rwa [hasT_cons_a] at h3
        apply ih
        · intro l hl
          exact hT l (List.mem_cons_of_mem _ hl)
        · exact hrf
        · rwa [hasR_cons_a] at hR
        · exact Or.inr (Or.inl ⟨Or.inl rfl, hT2⟩)
    | .m =>
      show parseArgs nowTm mk st (['-', 'm'] :: (optsArgs os2 ++ files)) = _
      rw [parseArgs_optM]
      by_cases hcond : (st.use_atime || timerisset st.new_ctime) = true
      · rw [if_pos hcond]
      · rw [if_neg hcond]
        simp only [Bool.or_eq_true, not_or, Bool.not_eq_true] at hcond
        obtain ⟨hA, hTm⟩ := hcond
        have hT2 : hasT os2 = true := by
          rcases hconf with ⟨h1, -⟩ | ⟨-, h2⟩ | ⟨-, h3⟩
          · rw [hTm] at h1
            exact Bool.noConfusion h1
          · rwa [hasT_cons_m] at h2
          · rwa [hasT_cons_m] at h3
        apply ih
        · intro l hl
          exact hT l (List.mem_cons_of_mem _ hl)
        · exact hrf
        · rwa [hasR_cons_m] at hR
        · exact Or.inr (Or.inl ⟨Or.inr rfl, hT2⟩)
    | .r p =>
      rw [hasR_cons_r] at hR
      exact Bool.noConfusion hR
    | .t l =>
      show parseArgs nowTm mk st (['-', 't'] :: l :: (optsArgs os2 ++ files)) = _
      rw [parseArgs_optT]
      by_cases hcond : (st.use_atime || st.use_mtime) = true
      · rw [if_pos hcond]
      · rw [if_neg hcond, if_neg (by simp [hrf])]
        simp only [Bool.or_eq_true, not_or, Bool.not_eq_true] at hcond
        obtain ⟨hA, hM⟩ := hcond
        have hTl : timerisset (str2timeval nowTm mk l) = true :=
          hT l (List.mem_cons_self _ _)
        have hSel2 : hasSel os2 = true := by
          rcases hconf with ⟨-, h1⟩ | ⟨h2, -⟩ | ⟨h3, -⟩
          · rwa [hasSel_cons_t] at h1
          · rcases h2 with h2 | h2
            · rw [hA] at h2
              exact Bool.noConfusion h2
            · rw [hM] at h2
              exact Bool.noConfusion h2
          · rwa [hasSel_cons_t] at h3
        apply ih
        · intro l2 hl2
          exact hT l2 (List.mem_cons_of_mem _ hl2)
        · exact hrf
        · rwa [hasR_cons_t] at hR
        · exact Or.inl ⟨hTl, hSel2⟩

theorem parse_conflict_ref (nowTm : Tm) (mk : Tm → Int) :
    ∀ os : List Opt, ∀ st : PState, ∀ files : List (List Char),
      (∀ l, Opt.t l ∈ os → timerisset (str2timeval nowTm mk l) = true) →
      st.use_atime = false → st.use_mtime = false → hasSel os = false →
      ((timerisset st.new_ctime = true ∧ hasR os = true) ∨
       ((st.rfile).isSome = true ∧ hasT os = true) ∨
       (hasR os = true ∧ hasT os = true)) →
      parseArgs nowTm mk st (optsArgs os ++ files) = .error .exclusive2 := by
  intro os
  induction os with
  | nil =>
    intro st files _ _ _ _ hconf
    simp [hasR, hasT] at hconf
  | cons o os2 ih =>
    intro st files hT hA hM hSel hconf
    match o with
    | .a =>
      rw [hasSel_cons_a] at hSel
      exact Bool.noConfusion hSel
    | .m =>
      rw [hasSel_cons_m] at hSel
      exact Bool.noConfusion hSel
    | .r p =>
      show parseArgs nowTm mk st (['-', 'r'] :: p :: (optsArgs os2 ++ files)) = _
      rw [parseArgs_optR]
      by_cases hcond : timerisset st.new_ctime = true
      · rw [if_pos hcond]
      · rw [if_neg hcond]
        have hTm : timerisset st.new_ctime = false := by
          cases h : timerisset st.new_ctime
          · rfl
          · exact absurd h hcond
        have hT2 : hasT os2 = true := by
          rcases hconf with ⟨h1, -⟩ | ⟨-, h2⟩ | ⟨-, h3⟩
          · rw [hTm] at h1
            exact Bool.noConfusion h1
          · rwa [hasT_cons_r] at h2
          · rwa [hasT_cons_r] at h3
        apply ih
        · intro l hl
          exact hT l (List.mem_cons_of_mem _ hl)
        · exact hA
        · exact hM
        · rwa [hasSel_cons_r] at hSel
        · exact Or.inr (Or.inl ⟨rfl, hT2⟩)
    | .t l =>
      show parseArgs nowTm mk st (['-', 't'] :: l :: (optsArgs os2 ++ files)) = _
      rw [parseArgs_optT, if_neg (by simp [hA, hM])]
      by_cases hcond : (st.rfile).isSome = true
      · rw [if_pos hcond]
      · rw [if_neg hcond]
        have hTl : timerisset (str2timeval nowTm mk l) = true :=
          hT l (List.mem_cons_self _ _)
        have hR2 : hasR os2 = true := by
          rcases hconf with ⟨-, h1⟩ | ⟨h2, -⟩ | ⟨h3, -⟩
          · rwa [hasR_cons_t] at h1
          · exact absurd h2 hcond
          · rwa [hasR_cons_t] at h3
        apply ih
        · intro l2 hl2
          exact hT l2 (List.mem_cons_of_mem _ hl2)
        · exact hA
        · exact hM
        · rwa [hasSel_cons_t] at hSel
        · exact Or.inl ⟨hTl, hR2⟩

theorem parse_conflict_any (nowTm : Tm) (mk : Tm → Int) :
    ∀ os : List Opt, ∀ st : PState, ∀ files : List (List Char),
      (∀ l, Opt.t l ∈ os → timerisset (str2timeval nowTm mk l) = true) →
      ((timerisset st.new_ctime = true ∧ (hasSel os = true ∨ hasR os = true)) ∨
       ((st.use_atime = true ∨ st.use_mtime = true ∨ (st.rfile).isSome = true) ∧
         hasT os = true) ∨
       ((hasSel os = true ∨ hasR os = true) ∧ hasT os = true)) →
      parseArgs nowTm mk st (optsArgs os ++ files) = .error .exclusive1 ∨
      parseArgs nowTm mk st (optsArgs os ++ files) = .error .exclusive2 := by
  intro os
  induction os with
  | nil =>
    intro st files _ hconf
    simp [hasSel, hasR, hasT] at hconf
  | cons o os2 ih =>
    intro st files hT hconf
    match o with
    | .a =>
      by_cases hcond : (st.use_mtime || timerisset st.new_ctime) = true
      · refine Or.inl ?_
        show parseArgs nowTm mk st (['-', 'a'] :: (optsArgs os2 ++ files)) = _
        rw [parseArgs_optA, if_pos hcond]
      · have heq : parseArgs nowTm mk st (optsArgs (Opt.a :: os2) ++ files) =
            parseArgs nowTm mk { st with use_atime := true } (optsArgs os2 ++ files) := by
          show parseArgs nowTm mk st (['-', 'a'] :: (optsArgs os2 ++ files)) = _
          rw [parseArgs_optA, if_neg hcond]
        rw [heq]
        simp only [Bool.or_eq_true, not_or, Bool.not_eq_true] at hcond
        obtain ⟨hM, hTm⟩ := hcond
        have hT2 : hasT os2 = true := by
          rcases hconf with ⟨h1, -⟩ | ⟨-, h2⟩ | ⟨-, h3⟩
          · rw [hTm] at h1
            exact Bool.noConfusion h1
          · rwa [hasT_cons_a] at h2
          · rwa [hasT_cons_a] at h3
        apply ih
        · intro l hl
          exact hT l (List.mem_cons_of_mem _ hl)
        · exact Or.inr (Or.inl ⟨Or.inl rfl, hT2⟩)
    | .m =>
      by_cases hcond : (st.use_atime || timerisset st.new_ctime) = true
      · refine Or.inl ?_
        show parseArgs nowTm mk st (['-', 'm'] :: (optsArgs os2 ++ files)) = _
        rw [parseArgs_optM, if_pos hcond]
      · have heq : parseArgs nowTm mk st (optsArgs (Opt.m :: os2) ++ files) =
            parseArgs nowTm mk { st with use_mtime := true } (optsArgs os2 ++ files) := by
          show parseArgs nowTm mk st (['-', 'm'] :: (optsArgs os2 ++ files)) = _
          rw [parseArgs_optM, if_neg hcond]
        rw [heq]
        simp only [Bool.or_eq_true, not_or, Bool.not_eq_true] at hcond
        obtain ⟨hA, hTm⟩ := hcond
        have hT2 : hasT os2 = true := by
          rcases hconf with ⟨h1, -⟩ | ⟨-, h2⟩ | ⟨-, h3⟩
          · rw [hTm] at h1
            exact Bool.noConfusion h1
          · rwa [hasT_cons_m] at h2
          · rwa [hasT_cons_m] at h3
        apply ih
        · intro l hl
          exact hT l (List.mem_cons_of_mem _ hl)
        · exact Or.inr (Or.inl ⟨Or.inr (Or.inl rfl), hT2⟩)
    | .r p =>
      by_cases hcond : timerisset st.new_ctime = true
      · refine Or.inr ?_
        show parseArgs nowTm mk st (['-', 'r'] :: p :: (optsArgs os2 ++ files)) = _
        rw [parseArgs_optR, if_pos hcond]
      · have heq : parseArgs nowTm mk st (optsArgs (Opt.r p :: os2) ++ files) =
            parseArgs nowTm mk { st with rfile := some p } (optsArgs os2 ++ files) := by
          show parseArgs nowTm mk st (['-', 'r'] :: p :: (optsArgs os2 ++ files)) = _
          rw [parseArgs_optR, if_neg hcond]
        rw [heq]
        have hTm : timerisset st.new_ctime = false := by
          cases h : timerisset st.new_ctime
          · rfl
          · exact absurd h hcond
        have hT2 : hasT os2 = true := by
          rcases hconf with ⟨h1, -⟩ | ⟨-, h2⟩ | ⟨-, h3⟩
          · rw [hTm] at h1
            exact Bool.noConfusion h1
          · rwa [hasT_cons_r] at h2
          · rwa [hasT_cons_r] at h3
        apply ih
        · intro l hl
          exact hT l (List.mem_cons_of_mem _ hl)
        · exact Or.inr (Or.inl ⟨Or.inr (Or.inr rfl), hT2⟩)
    | .t l =>
      by_cases hcond : (st.use_atime || st.use_mtime) = true
      · refine Or.inl ?_
        show parseArgs nowTm mk st (['-', 't'] :: l :: (optsArgs os2 ++ files)) = _
        rw [parseArgs_optT, if_pos hcond]
      · by_cases hcond2 : (st.rfile).isSome = true
        · refine Or.inr ?_
          show parseArgs nowTm mk st (['-', 't'] :: l :: (optsArgs os2 ++ files)) = _
          rw [parseArgs_optT, if_neg hcond, if_pos hcond2]
        · have heq : parseArgs nowTm mk st (optsArgs (Opt.t l :: os2) ++ files) =
              parseArgs nowTm mk { st with new_ctime := str2timeval nowTm mk l }
                (optsArgs os2 ++ files) := by
            show parseArgs nowTm mk st (['-', 't'] :: l :: (optsArgs os2 ++ files)) = _
            rw [parseArgs_optT, if_neg hcond, if_neg hcond2]
          rw [heq]
          simp only [Bool.or_eq_true, not_or, Bool.not_eq_true] at hcond
          obtain ⟨hA, hM⟩ := hcond
          have hTl : timerisset (str2timeval nowTm mk l) = true :=
            hT l (List.mem_cons_self _ _)
          have hSR2 : hasSel os2 = true ∨ hasR os2 = true := by
            rcases hconf with ⟨-, h1⟩ | ⟨h2, -⟩ | ⟨h3, -⟩
            · rwa [hasSel_cons_t, hasR_cons_t] at h1
            · rcases h2 with h2 | h2 | h2
              · rw [hA] at h2
                exact Bool.noConfusion h2
              · rw [hM] at h2
                exact Bool.noConfusion h2
              · exact absurd h2 hcond2
            · rwa [hasSel_cons_t, hasR_cons_t] at h3
          apply ih
          · intro l2 hl2
            exact hT l2 (List.mem_cons_of_mem _ hl2)
          · exact Or.inl ⟨hTl, hSR2⟩

theorem mainRun_of_exclusive1 (nowTm : Tm) (mk : Tm → Int)
    (rfEnv : List (Except Nat StatBuf)) (fenv : List Char → Env) (args : List (List Char))
    (h : parseArgs nowTm mk ⟨false, false, none, ⟨0, 0⟩⟩ args = .error .exclusive1) :
    mainRun nowTm mk rfEnv fenv args = MainOut.conflict1 := by
  simp [mainRun, h]

theorem mainRun_of_exclusive2 (nowTm : Tm) (mk : Tm → Int)
    (rfEnv : List (Except Nat StatBuf)) (fenv : List Char → Env) (args : List (List Char))
    (h : parseArgs nowTm mk ⟨false, false, none, ⟨0, 0⟩⟩ args = .error .exclusive2) :
    mainRun nowTm mk rfEnv fenv args = MainOut.conflict2 := by
  simp [mainRun, h]

/-- C4 amended: for an argument vector whose option region consists of
well-formed -a, -m, -r, -t option groups, if an explicit -t time is supplied
together with a selector or a reference file, and every -t literal resolves
to a non-zero instant, then the program exits through the mutual-exclusion
diagnostics before statting any file or touching the clock — the first
diagnostic (selector versus explicit time) when only selector conflicts are
present, the second (reference versus explicit time) when only
reference-file conflicts are present — performing zero filesystem or clock
mutation; a -t literal that resolves to exactly (0,0), however, is
indistinguishable from the unset instant and disables the detection of a
subsequent conflicting option (see the counterexample). -/
theorem C4_conflicts_fail_fast (nowTm : Tm) (mk : Tm → Int)
    (rfEnv : List (Except Nat StatBuf)) (fenv : List Char → Env) (os : List Opt)
    (files : List (List Char))
    (hT : ∀ l, Opt.t l ∈ os → timerisset (str2timeval nowTm mk l) = true) :
    (hasSel os = true → hasT os = true → hasR os = false →
      mainRun nowTm mk rfEnv fenv (optsArgs os ++ files) = MainOut.conflict1) ∧
    (hasR os = true → hasT os = true → hasSel os = false →
      mainRun nowTm mk rfEnv fenv (optsArgs os ++ files) = MainOut.conflict2) ∧
    (hasT os = true → (hasSel os = true ∨ hasR os = true) →
      mainRun nowTm mk rfEnv fenv (optsArgs os ++ files) = MainOut.conflict1 ∨
      mainRun nowTm mk rfEnv fenv (optsArgs os ++ files) = MainOut.conflict2) := by
  refine ⟨?_, ?_, ?_⟩
  · intro hSel hTos hR
    apply mainRun_of_exclusive1
    exact parse_conflict_sel nowTm mk os ⟨false, false, none, ⟨0, 0⟩⟩ files hT rfl hR
      (Or.inr (Or.inr ⟨hSel, hTos⟩))
  · intro hR hTos hSel
    apply mainRun_of_exclusive2
    exact parse_conflict_ref nowTm mk os ⟨false, false, none, ⟨0, 0⟩⟩ files hT rfl rfl hSel
      (Or.inr (Or.inr ⟨hR, hTos⟩))
  · intro hTos hSR
    rcases parse_conflict_any nowTm mk os ⟨false, false, none, ⟨0, 0⟩⟩ files hT
        (Or.inr (Or.inr ⟨hSR, hTos⟩)) with h | h
    · exact Or.inl (mainRun_of_exclusive1 _ _ _ _ _ h)
    · exact Or.inr (mainRun_of_exclusive2 _ _ _ _ _ h)

/-- C4 witness: -a followed by -t with a literal resolving to a nonzero
instant exits with the first mutual-exclusion diagnostic. -/
theorem C4_conflicts_fail_fast_witness :
    mainRun nowTm0 mkEpoch [] fenvOK
      (optsArgs [Opt.a, Opt.t ['1', ':', '2']] ++ [['f']]) = MainOut.conflict1 :=
  (C4_conflicts_fail_fast nowTm0 mkEpoch [] fenvOK [Opt.a, Opt.t ['1', ':', '2']] [['f']]
    (by
      intro l hl
      simp at hl
      subst hl
      decide)).1 rfl rfl rfl

/-- C4 counterexample: the literal 1970:1:1:0:0:0 resolves (under the toy
UTC mktime) to exactly (0,0), which is the unset encoding, so the
conflicting -r that follows the -t is accepted; the run proceeds to stat
the reference file and mutate the target file, setting the clock to the
reference ctime (7777,0) — a conflicting combination that neither fails
fast nor avoids mutation. -/
theorem C4_unset_literal_counterexample :
    mainRun nowTm0 mkEpoch [Except.ok inodeR] fenvOK
      [['-', 't'], ['1', '9', '7', '0', ':', '1', ':', '1', ':', '0', ':', '0', ':', '0'],
       ['-', 'r'], ['g'], ['f']] =
      MainOut.run
        [(['f'], 0,
          [Event.statCall, Event.sigBlock, Event.settod ⟨7777, 0⟩ true, Event.chmodCall true,
           Event.settod ⟨50, 0⟩ true, Event.sigUnblock])] ∧
    Event.settod ⟨7777, 0⟩ true ∈
      [Event.statCall, Event.sigBlock, Event.settod ⟨7777, 0⟩ true, Event.chmodCall true,
       Event.settod ⟨50, 0⟩ true, Event.sigUnblock] := by
  decide

end Touch2
